import Mathlib

/-!
Verification of the squirrel_tree compressed trie (src/squirrel_tree/trie.py
and src/squirrel_tree/reactor.py).

Keys are Python strings, modelled as lists of characters (`Key`).  A trie
node (Python class `Trie`) holds an optional content value and a dictionary
of children indexed by their suffixes.  The Python object keeps `_suffix`
and `_parent` pointers; in this pure embedding a node's suffix is the key
under which it is stored in its parent's children list, and chains are
passed down explicitly as the list of suffixes from the root (Python
`Trie.chain`).  The pair of Python fields `_has_content` / `_content` is
modelled by a single `Option`: the reachable states of the Python object
are exactly `(False, None)` and `(True, v)`.

Python dict iteration order (this is Python 2 code: `collections.
MutableMapping`, `dict.keys()[0]`) is unspecified; children are modelled
as an association list, and the lemmas below show that under the trie's
sibling-disjointness invariant at most one child can match a key, so the
scan order of `_find_best_prefix` never matters on reachable states.
-/

/-- Characters of a Python string key. -/
abbrev Key := List Char

/-- Model of `os.path.commonprefix([a, b])` (source: trie.py line 4 and
line 111): the longest common prefix of the two keys. -/
def commonPfx : Key → Key → Key
  | a :: as, b :: bs => if a = b then a :: commonPfx as bs else []
  | _, _ => []

/-- Notification events, one per callback of the reactor protocol
(reactor.py `Reactor` plus the `remove_callback` used by trie.py): a
`create` fires in `Trie.__init__`, an `insert` in `_set_relative` on the
empty relative key, a `delete` in `_del_relative`, a `move` in
`_move_subtree_down` and in `_compact`, a `remove` in `_compact`. -/
inductive Event (α : Type) where
  | create (chain : List Key)
  | insert (chain : List Key) (value : α)
  | delete (chain : List Key) (old : α)
  | move (oldChain : List Key) (oldKey : Key) (newChain : List Key) (newKey : Key)
  | remove (chain : List Key)
deriving Repr, DecidableEq

/-- A trie node: Python `Trie` with fields `_content`/`_has_content`
(the `Option`) and `_subtries` (the association list from suffix to
child). -/
inductive Trie (α : Type) where
  | mk (content : Option α) (children : List (Key × Trie α))
deriving Repr

/-- Content of a node (`_content` under `_has_content = True`). -/
def Trie.content {α : Type} : Trie α → Option α
  | .mk c _ => c

/-- Children of a node (`_subtries`). -/
def Trie.children {α : Type} : Trie α → List (Key × Trie α)
  | .mk _ cs => cs

/-- Python `Trie.terminal`: true iff the node has no sub-tries. -/
def Trie.terminal {α : Type} (t : Trie α) : Bool := t.children.isEmpty

mutual
/-- Python `Trie.__len__`: 1 plus the sum of the children's sizes. -/
def Trie.size {α : Type} : Trie α → Nat
  | .mk _ cs => 1 + Trie.sizeList cs

/-- Sum of sizes over a children list (the loop of `__len__`). -/
def Trie.sizeList {α : Type} : List (Key × Trie α) → Nat
  | [] => 0
  | (_, t) :: rest => t.size + Trie.sizeList rest
end

/-- Association-list lookup by key (model of a Python dict read). -/
def lookupA {β : Type} : List (Key × β) → Key → Option β
  | [], _ => none
  | (k, v) :: rest, q => if k = q then some v else lookupA rest q

/-- Replace the value stored under `q` (model of `d[q] = t` for a key
already present). -/
def replaceKey {α : Type} : List (Key × Trie α) → Key → Trie α → List (Key × Trie α)
  | [], _, _ => []
  | (p, c) :: rest, q, t => if p = q then (p, t) :: rest else (p, c) :: replaceKey rest q t

/-- Remove the entry stored under `q` (model of `del d[q]`). -/
def eraseKey {α : Type} : List (Key × Trie α) → Key → List (Key × Trie α)
  | [], _ => []
  | (p, c) :: rest, q => if p = q then rest else (p, c) :: eraseKey rest q

/-- Python `Trie._find_best_prefix` (trie.py lines 109-114): scan the
children for the first suffix sharing a non-empty common prefix with
`rkey`; return that suffix, the length of the common part, and the child
(the Python version returns the suffix and length and the callers then
index `_subtries`; returning the entry itself is the same thing since
dict keys are unique). -/
def findBestPfx {α : Type} : List (Key × Trie α) → Key → Option (Key × Nat × Trie α)
  | [], _ => none
  | (p, c) :: rest, rkey =>
    let com := commonPfx p rkey
    if com = [] then findBestPfx rest rkey else some (p, com.length, c)

/-- Python `Trie._find_containing_prefix` (trie.py lines 100-107): the
best prefix must exist and be wholly contained in `rkey`, otherwise
`KeyError("No requested key.")`. -/
def findContainingPfx {α : Type} (cs : List (Key × Trie α)) (rkey : Key) :
    Except String (Key × Nat × Trie α) :=
  match findBestPfx cs rkey with
  | none => .error "No requested key."
  | some (p, l, c) =>
    if l = p.length then .ok (p, l, c) else .error "No requested key."

theorem commonPfx_nil_left (b : Key) : commonPfx [] b = [] := by
  cases b <;> rfl

theorem commonPfx_nil_right (a : Key) : commonPfx a [] = [] := by
  cases a <;> rfl

theorem commonPfx_ne_nil_left {a b : Key} (h : commonPfx a b ≠ []) : a ≠ [] := by
  intro ha; subst ha; exact h (commonPfx_nil_left b)

theorem commonPfx_ne_nil_right {a b : Key} (h : commonPfx a b ≠ []) : b ≠ [] := by
  intro hb; subst hb; exact h (commonPfx_nil_right a)

theorem commonPfx_cons_cons (x y : Char) (xs ys : Key) :
    commonPfx (x :: xs) (y :: ys) = if x = y then x :: commonPfx xs ys else [] := rfl

theorem commonPfx_ne_nil_iff {a b : Key} :
    commonPfx a b ≠ [] ↔ ∃ x xs ys, a = x :: xs ∧ b = x :: ys := by
  constructor
  · intro h
    cases a with
    | nil => exact absurd (commonPfx_nil_left b) h
    | cons x xs =>
      cases b with
      | nil => exact absurd (commonPfx_nil_right (x :: xs)) h
      | cons y ys =>
        rw [commonPfx_cons_cons] at h
        by_cases hxy : x = y
        · exact ⟨x, xs, ys, rfl, by rw [hxy]⟩
        · simp [hxy] at h
  · rintro ⟨x, xs, ys, rfl, rfl⟩
    rw [commonPfx_cons_cons]
    simp

theorem commonPfx_comm_nil {a b : Key} (h : commonPfx a b = []) : commonPfx b a = [] := by
  by_contra hc
  obtain ⟨x, xs, ys, rfl, rfl⟩ := commonPfx_ne_nil_iff.mp hc
  rw [commonPfx_cons_cons] at h
  simp at h

theorem commonPfx_length_le_left (a b : Key) : (commonPfx a b).length ≤ a.length := by
  induction a generalizing b with
  | nil => rw [commonPfx_nil_left]
  | cons x xs ih =>
    cases b with
    | nil => rw [commonPfx_nil_right]; simp
    | cons y ys =>
      rw [commonPfx_cons_cons]
      split
      · simpa using ih ys
      · simp

theorem commonPfx_length_le_right (a b : Key) : (commonPfx a b).length ≤ b.length := by
  induction a generalizing b with
  | nil => rw [commonPfx_nil_left]; simp
  | cons x xs ih =>
    cases b with
    | nil => rw [commonPfx_nil_right]
    | cons y ys =>
      rw [commonPfx_cons_cons]
      split
      · simpa using ih ys
      · simp

/-- The common prefix is a prefix of the left argument. -/
theorem commonPfx_take_left (a b : Key) : a.take (commonPfx a b).length = commonPfx a b := by
  induction a generalizing b with
  | nil => rw [commonPfx_nil_left]; simp
  | cons x xs ih =>
    cases b with
    | nil => rw [commonPfx_nil_right]; simp
    | cons y ys =>
      rw [commonPfx_cons_cons]
      split
      · simpa using ih ys
      · simp

/-- The common prefix is a prefix of the right argument. -/
theorem commonPfx_take_right (a b : Key) : b.take (commonPfx a b).length = commonPfx a b := by
  induction a generalizing b with
  | nil => rw [commonPfx_nil_left]; simp
  | cons x xs ih =>
    cases b with
    | nil => rw [commonPfx_nil_right]; simp
    | cons y ys =>
      rw [commonPfx_cons_cons]
      split
      · rename_i hxy; subst hxy; simpa using ih ys
      · simp

/-- A common prefix of full length of `a` means `a` is a prefix of `b`. -/
theorem commonPfx_full_left {a b : Key} (h : (commonPfx a b).length = a.length) :
    b.take a.length = a := by
  have h1 := commonPfx_take_left a b
  have h2 := commonPfx_take_right a b
  rw [h] at h1 h2
  rw [h2, ← h1]
  simp

theorem commonPfx_append (a r : Key) : commonPfx a (a ++ r) = a := by
  induction a with
  | nil => exact commonPfx_nil_left r
  | cons x xs ih => rw [List.cons_append, commonPfx_cons_cons]; simp [ih]

theorem commonPfx_self (a : Key) : commonPfx a a = a := by
  have := commonPfx_append a []
  simpa using this

/-- Two keys sharing a non-empty prefix with a third share one with each
other (all three start with the same character). -/
theorem commonPfx_head_trans {a b k : Key} (ha : commonPfx a k ≠ [])
    (hb : commonPfx b k ≠ []) : commonPfx a b ≠ [] := by
  obtain ⟨x, xs, ks, rfl, rfl⟩ := commonPfx_ne_nil_iff.mp ha
  obtain ⟨y, ys, ks2, rfl, hk⟩ := commonPfx_ne_nil_iff.mp hb
  have hxy : x = y := (List.cons_eq_cons.mp hk).1
  subst hxy
  exact commonPfx_ne_nil_iff.mpr ⟨x, xs, ys, rfl, rfl⟩

/-- If `p` is a non-empty prefix of `k`, their common prefix is `p`. -/
theorem commonPfx_of_append (p r : Key) : commonPfx p (p ++ r) = p :=
  commonPfx_append p r

theorem findBestPfx_some {α : Type} {cs : List (Key × Trie α)} {rkey p : Key}
    {l : Nat} {c : Trie α} (h : findBestPfx cs rkey = some (p, l, c)) :
    (p, c) ∈ cs ∧ commonPfx p rkey ≠ [] ∧ l = (commonPfx p rkey).length := by
  induction cs with
  | nil => simp [findBestPfx] at h
  | cons e rest ih =>
    obtain ⟨q, d⟩ := e
    simp only [findBestPfx] at h
    split at h
    · obtain ⟨h1, h2, h3⟩ := ih h
      exact ⟨List.mem_cons_of_mem _ h1, h2, h3⟩
    · rename_i hne
      obtain ⟨rfl, rfl, rfl⟩ : q = p ∧ (commonPfx q rkey).length = l ∧ d = c := by
        simpa using h
      exact ⟨List.mem_cons_self _ _, hne, rfl⟩

theorem findBestPfx_pos {α : Type} {cs : List (Key × Trie α)} {rkey p : Key}
    {l : Nat} {c : Trie α} (h : findBestPfx cs rkey = some (p, l, c)) :
    1 ≤ l ∧ rkey ≠ [] ∧ p ≠ [] := by
  obtain ⟨-, h2, h3⟩ := findBestPfx_some h
  refine ⟨?_, commonPfx_ne_nil_right h2, commonPfx_ne_nil_left h2⟩
  rw [h3]
  exact List.length_pos.mpr h2

theorem findBestPfx_none {α : Type} {cs : List (Key × Trie α)} {rkey : Key}
    (h : findBestPfx cs rkey = none) :
    ∀ e ∈ cs, commonPfx e.1 rkey = [] := by
  induction cs with
  | nil => simp
  | cons e rest ih =>
    obtain ⟨q, d⟩ := e
    simp only [findBestPfx] at h
    split at h
    · rename_i hq
      intro f hf
      rcases List.mem_cons.mp hf with rfl | hf
      · exact hq
      · exact ih h f hf
    · exact absurd h (by simp)

theorem findContainingPfx_ok {α : Type} {cs : List (Key × Trie α)} {rkey p : Key}
    {l : Nat} {c : Trie α} (h : findContainingPfx cs rkey = .ok (p, l, c)) :
    findBestPfx cs rkey = some (p, l, c) ∧ l = p.length := by
  unfold findContainingPfx at h
  split at h
  · exact absurd h (by simp)
  · rename_i q m d hbest
    split at h
    · rename_i hlen
      obtain ⟨rfl, rfl, rfl⟩ : q = p ∧ m = l ∧ d = c := by
        constructor
        · exact congrArg (fun x => x.1) (Except.ok.inj h)
        · constructor
          · exact congrArg (fun x => x.2.1) (Except.ok.inj h)
          · exact congrArg (fun x => x.2.2) (Except.ok.inj h)
      exact ⟨hbest, hlen⟩
    · exact absurd h (by simp)

theorem findContainingPfx_pos {α : Type} {cs : List (Key × Trie α)} {rkey p : Key}
    {l : Nat} {c : Trie α} (h : findContainingPfx cs rkey = .ok (p, l, c)) :
    1 ≤ l ∧ rkey ≠ [] := by
  obtain ⟨hb, -⟩ := findContainingPfx_ok h
  obtain ⟨h1, h2, -⟩ := findBestPfx_pos hb
  exact ⟨h1, h2⟩

/-- Python `Trie._get_relative` (trie.py lines 90-98): an empty relative
key asks for this node's content (`KeyError` if absent); otherwise the
containing child is located and the lookup recurses with the remainder of
the key. -/
def getRel {α : Type} (t : Trie α) (rkey : Key) : Except String α :=
  match t, rkey with
  | .mk c _, [] =>
    match c with
    | some v => .ok v
    | none => .error "No content in requested key (get)."
  | .mk _ cs, a :: as =>
    match h : findContainingPfx cs (a :: as) with
    | .error e => .error e
    | .ok (_, l, child) => getRel child ((a :: as).drop l)
termination_by rkey.length
decreasing_by
  obtain ⟨h1, h2⟩ := findContainingPfx_pos h
  simp only [List.length_drop, List.length_cons]
  omega

/-- Python `Trie._set_relative` (trie.py lines 119-145), with the bodies
of `_add_in_new_subtrie`, `_add_over_subtree`, `_move_subtree_down` and
`_add_intersecting` (lines 147-164 and 198-209) inlined.  `ch` is the
chain of the current node (Python `self.chain`).  Returns the updated
node together with the reactor events fired, in order.  Children are
registered in the position of the entry they replace or at the end of the
association list; Python 2 dict order is unspecified and, on states
satisfying the sibling-disjointness invariant, unobservable. -/
def setRel {α : Type} (ch : List Key) (t : Trie α) (rkey : Key) (v : α) :
    Trie α × List (Event α) :=
  match t, rkey with
  | .mk _ cs, [] => (.mk (some v) cs, [.insert ch v])
  | .mk c cs, a :: as =>
    match h : findBestPfx cs (a :: as) with
    | none =>
      -- possibility 1: no subtrie with overlapping key (`_add_in_new_subtrie`)
      (.mk c (cs ++ [(a :: as, .mk (some v) [])]),
       [.create (ch ++ [a :: as]), .insert (ch ++ [a :: as]) v])
    | some (p, l, child) =>
      if l = p.length then
        -- possibility 2: subtrie key is a start of rkey: recurse
        let r := setRel (ch ++ [p]) child ((a :: as).drop l) v
        (.mk c (replaceKey cs p r.1), r.2)
      else if l = (a :: as).length then
        -- possibility 3: rkey is a start of the subtrie key
        -- (`_add_over_subtree`: new node with the value, then
        -- `_move_subtree_down` hangs the old child under it)
        (.mk c (eraseKey cs p ++ [(a :: as, .mk (some v) [(p.drop l, child)])]),
         [.create (ch ++ [a :: as]), .insert (ch ++ [a :: as]) v,
          .move ch p (ch ++ [a :: as]) (p.drop l)])
      else
        -- possibility 4: overlapping keys (`_add_intersecting`: branch
        -- node at the intersection, old child moved under it, then the
        -- remainder of rkey is set under the branch)
        let inter := (a :: as).take l
        let r := setRel (ch ++ [inter]) (.mk none [(p.drop l, child)]) ((a :: as).drop l) v
        (.mk c (eraseKey cs p ++ [(inter, r.1)]),
         [.create (ch ++ [inter]), .move ch p (ch ++ [inter]) (p.drop l)] ++ r.2)
termination_by rkey.length
decreasing_by
  all_goals
    obtain ⟨h1, h2, -⟩ := findBestPfx_pos h
  all_goals
    simp only [List.length_drop, List.length_cons]
  all_goals
    omega

/-- Result of deleting inside a subtree, as seen by the parent: the
subtree survives (possibly changed), or it was detached
(`unregister_child` after a compaction with no children), or it was
merged into its single child, which is re-registered under the combined
suffix. -/
inductive DelRes (α : Type) where
  | keep (t : Trie α)
  | remove
  | merged (s : Key) (t : Trie α)
deriving Repr

/-- Python `Trie._compact` (trie.py lines 227-248).  `pch` is the chain
of the parent and `suffix` the node's own suffix, so the node's chain is
`pch ++ [suffix]`.  A node with content, the root, and a node with two or
more children are left alone; a node with no children is detached (remove
event); a node with exactly one child is merged into it (move event, then
remove event). -/
def compact {α : Type} (pch : List Key) (suffix : Key) (t : Trie α) :
    DelRes α × List (Event α) :=
  match t with
  | .mk (some v) cs => (.keep (.mk (some v) cs), [])
  | .mk none cs =>
    if suffix = [] then (.keep (.mk none cs), [])
    else
      match cs with
      | [] => (.remove, [.remove (pch ++ [suffix])])
      | [(s, c)] =>
        (.merged (suffix ++ s) c,
         [.move (pch ++ [suffix]) s pch (suffix ++ s),
          .remove (pch ++ [suffix])])
      | _ => (.keep (.mk none cs), [])

/-- Python `Trie._del_relative` (trie.py lines 214-225).  On the empty
relative key the node's content is cleared (`KeyError` if absent), a
delete event fires with the node's chain and the old value, and the node
is compacted.  Otherwise the deletion recurses into the containing child;
when the child reports that it detached itself or merged into its
grandchild (`unregister_child`, trie.py lines 188-196, which re-runs
`_compact` on the parent), the children list is updated and this node is
compacted in turn. -/
def delRel {α : Type} (pch : List Key) (suffix : Key) (t : Trie α) (rkey : Key) :
    Except String (DelRes α × List (Event α)) :=
  match t, rkey with
  | .mk c cs, [] =>
    match c with
    | none => .error "No content in requested key (del)."
    | some v =>
      let r := compact pch suffix (.mk none cs)
      .ok (r.1, .delete (pch ++ [suffix]) v :: r.2)
  | .mk c cs, a :: as =>
    match h : findContainingPfx cs (a :: as) with
    | .error e => .error e
    | .ok (p, l, child) =>
      match delRel (pch ++ [suffix]) p child ((a :: as).drop l) with
      | .error e => .error e
      | .ok (.keep child', evs) => .ok (.keep (.mk c (replaceKey cs p child')), evs)
      | .ok (.remove, evs) =>
        let r := compact pch suffix (.mk c (eraseKey cs p))
        .ok (r.1, evs ++ r.2)
      | .ok (.merged s2 gc, evs) =>
        let r := compact pch suffix (.mk c (eraseKey cs p ++ [(s2, gc)]))
        .ok (r.1, evs ++ r.2)
termination_by rkey.length
decreasing_by
  obtain ⟨h1, h2⟩ := findContainingPfx_pos h
  simp only [List.length_drop, List.length_cons]
  omega

/-- An empty root trie, as built by `Trie()`. -/
def emptyTrie {α : Type} : Trie α := .mk none []

/-- Python `trie[key] = value` on the root (`__setitem__`): the root's
chain is `['']`. -/
def Trie.setRoot {α : Type} (t : Trie α) (k : Key) (v : α) : Trie α × List (Event α) :=
  setRel [[]] t k v

/-- Python `trie[key]` on the root (`__getitem__`). -/
def Trie.getRoot {α : Type} (t : Trie α) (k : Key) : Except String α :=
  getRel t k

/-- Python `del trie[key]` on the root (`__delitem__`).  `_compact`
never removes or merges the root (its suffix is empty), so the
result of `delRel` at the root is always `DelRes.keep`; the other two
branches are unreachable (see `delRel_root_keep`). -/
def Trie.delRoot {α : Type} (t : Trie α) (k : Key) :
    Except String (Trie α × List (Event α)) :=
  match delRel [] [] t k with
  | .error e => .error e
  | .ok (.keep t2, evs) => .ok (t2, evs)
  | .ok (.remove, evs) => .ok (.mk none [], evs)
  | .ok (.merged _ gc, evs) => .ok (gc, evs)

mutual
/-- Sibling-disjointness invariant, everywhere below this node: every
child suffix is non-empty, no two sibling suffixes share a non-empty
common prefix, and the same holds recursively (spec invariants 1 and 2;
the root's own suffix is the empty string and is not a child key). -/
def disjInv {α : Type} : Trie α → Bool
  | .mk _ cs => disjInvList cs

/-- Disjointness check over a children list. -/
def disjInvList {α : Type} : List (Key × Trie α) → Bool
  | [] => true
  | (k, t) :: rest =>
    !k.isEmpty && rest.all (fun e => (commonPfx k e.1).isEmpty) &&
      disjInv t && disjInvList rest
end

mutual
/-- Compaction invariant for a node in child (non-root) position: a node
without content has at least two children, recursively (spec
invariant 3). -/
def compactInv {α : Type} : Trie α → Bool
  | .mk c cs => (c.isSome || decide (2 ≤ cs.length)) && compactInvList cs

/-- Compaction check over a children list. -/
def compactInvList {α : Type} : List (Key × Trie α) → Bool
  | [] => true
  | (_, t) :: rest => compactInv t && compactInvList rest
end

/-- Invariant of a whole (rooted) trie: the root itself is exempt from
the at-least-two-children rule, its subtrees are not. -/
def rootInv {α : Type} (t : Trie α) : Bool :=
  disjInv t && compactInvList t.children

mutual
/-- All key-to-value bindings stored in a subtree, as pairs of the key
relative to this node and the value.  This is the abstract mapping the
trie represents. -/
def bindings {α : Type} : Trie α → List (Key × α)
  | .mk c cs =>
    (match c with | some v => [([], v)] | none => []) ++ bindingsList cs

/-- Bindings contributed by a children list, keys prefixed by the child
suffixes. -/
def bindingsList {α : Type} : List (Key × Trie α) → List (Key × α)
  | [] => []
  | (k, t) :: rest => (bindings t).map (fun b => (k ++ b.1, b.2)) ++ bindingsList rest
end

/-- The callbacks declared by the reactor interface and implemented by
the default no-op sink (reactor.py: `Reactor` declares and
`EmptyReactor` implements `delete_callback`, `insert_callback`,
`create_callback` and `move_callback`; there is no `remove_callback`). -/
def emptyReactorHandles {α : Type} : Event α → Bool
  | .delete _ _ => true
  | .insert _ _ => true
  | .create _ => true
  | .move _ _ _ _ => true
  | .remove _ => false

/-- Python `Trie.__init__` (trie.py lines 21-44): the suffix defaults to
the empty string (`suffix or ''` also maps an explicit empty string to
the empty string); a node with a parent and an empty suffix raises
`ValueError("Only root trie may have empty suffix.")`; otherwise the
node starts without content or children and fires a create event with
its chain.  `parentChain` is the chain of the parent node when a parent
is given. -/
def trieInit (α : Type) (parentChain : Option (List Key)) (suffix : Option Key) :
    Except String (Trie α × Event α) :=
  let s : Key := match suffix with | none => [] | some k => k
  match parentChain with
  | some pch =>
    if s.isEmpty then .error "Only root trie may have empty suffix."
    else .ok (.mk none [], .create (pch ++ [s]))
  | none => .ok (.mk none [], .create [s])
theorem setRel_nil {α : Type} (ch : List Key) (c : Option α) (cs : List (Key × Trie α)) (v : α) :
    setRel ch (.mk c cs) [] v = (.mk (some v) cs, [.insert ch v]) := by
  rw [setRel]

theorem setRel_case1 {α : Type} (ch : List Key) (c : Option α) (cs : List (Key × Trie α))
    {rkey : Key} (hk : rkey ≠ []) (v : α) (hf : findBestPfx cs rkey = none) :
    setRel ch (.mk c cs) rkey v =
      (.mk c (cs ++ [(rkey, .mk (some v) [])]),
       [.create (ch ++ [rkey]), .insert (ch ++ [rkey]) v]) := by
  cases rkey with
  | nil => exact absurd rfl hk
  | cons a as =>
    rw [setRel]
    · split
      · rfl
      · rename_i p l child hsome
        rw [hf] at hsome
        exact absurd hsome (by simp)

theorem setRel_case2 {α : Type} (ch : List Key) (c : Option α) (cs : List (Key × Trie α))
    {rkey p : Key} {l : Nat} {child : Trie α} (v : α)
    (hf : findBestPfx cs rkey = some (p, l, child)) (hl : l = p.length) :
    setRel ch (.mk c cs) rkey v =
      (.mk c (replaceKey cs p (setRel (ch ++ [p]) child (rkey.drop l) v).1),
       (setRel (ch ++ [p]) child (rkey.drop l) v).2) := by
  obtain ⟨-, hk, -⟩ := findBestPfx_pos hf
  cases rkey with
  | nil => exact absurd rfl hk
  | cons a as =>
    rw [setRel]
    · split
      · rename_i hnone; rw [hf] at hnone; exact absurd hnone (by simp)
      · rename_i q m d hsome
        rw [hf] at hsome
        simp only [Option.some.injEq, Prod.mk.injEq] at hsome
        obtain ⟨rfl, rfl, rfl⟩ := hsome
        rw [if_pos hl]

theorem setRel_case3 {α : Type} (ch : List Key) (c : Option α) (cs : List (Key × Trie α))
    {rkey p : Key} {l : Nat} {child : Trie α} (v : α)
    (hf : findBestPfx cs rkey = some (p, l, child)) (hlp : ¬ l = p.length)
    (hlr : l = rkey.length) :
    setRel ch (.mk c cs) rkey v =
      (.mk c (eraseKey cs p ++ [(rkey, .mk (some v) [(p.drop l, child)])]),
       [.create (ch ++ [rkey]), .insert (ch ++ [rkey]) v,
        .move ch p (ch ++ [rkey]) (p.drop l)]) := by
  obtain ⟨-, hk, -⟩ := findBestPfx_pos hf
  cases rkey with
  | nil => exact absurd rfl hk
  | cons a as =>
    rw [setRel]
    · split
      · rename_i hnone; rw [hf] at hnone; exact absurd hnone (by simp)
      · rename_i q m d hsome
        rw [hf] at hsome
        simp only [Option.some.injEq, Prod.mk.injEq] at hsome
        obtain ⟨rfl, rfl, rfl⟩ := hsome
        rw [if_neg hlp, if_pos hlr]

theorem setRel_case4 {α : Type} (ch : List Key) (c : Option α) (cs : List (Key × Trie α))
    {rkey p : Key} {l : Nat} {child : Trie α} (v : α)
    (hf : findBestPfx cs rkey = some (p, l, child)) (hlp : ¬ l = p.length)
    (hlr : ¬ l = rkey.length) :
    setRel ch (.mk c cs) rkey v =
      (.mk c (eraseKey cs p ++
         [(rkey.take l, (setRel (ch ++ [rkey.take l]) (.mk none [(p.drop l, child)]) (rkey.drop l) v).1)]),
       [.create (ch ++ [rkey.take l]), .move ch p (ch ++ [rkey.take l]) (p.drop l)] ++
         (setRel (ch ++ [rkey.take l]) (.mk none [(p.drop l, child)]) (rkey.drop l) v).2) := by
  obtain ⟨-, hk, -⟩ := findBestPfx_pos hf
  cases rkey with
  | nil => exact absurd rfl hk
  | cons a as =>
    rw [setRel]
    · split
      · rename_i hnone; rw [hf] at hnone; exact absurd hnone (by simp)
      · rename_i q m d hsome
        rw [hf] at hsome
        simp only [Option.some.injEq, Prod.mk.injEq] at hsome
        obtain ⟨rfl, rfl, rfl⟩ := hsome
        rw [if_neg hlp, if_neg hlr]

theorem getRel_nil {α : Type} (c : Option α) (cs : List (Key × Trie α)) :
    getRel (.mk c cs) [] =
      (match c with
       | some v => .ok v
       | none => .error "No content in requested key (get).") := by
  rw [getRel.eq_def]

theorem getRel_err {α : Type} (c : Option α) (cs : List (Key × Trie α))
    {rkey : Key} (hk : rkey ≠ []) {e : String}
    (hf : findContainingPfx cs rkey = .error e) :
    getRel (.mk c cs) rkey = .error e := by
  cases rkey with
  | nil => exact absurd rfl hk
  | cons a as =>
    rw [getRel]
    · split
      · rename_i e2 herr
        rw [hf] at herr
        exact (Except.error.inj herr) ▸ rfl
      · rename_i p l child hok
        rw [hf] at hok
        exact absurd hok (by simp)

theorem getRel_step {α : Type} (c : Option α) (cs : List (Key × Trie α))
    {rkey p : Key} {l : Nat} {child : Trie α}
    (hf : findContainingPfx cs rkey = .ok (p, l, child)) :
    getRel (.mk c cs) rkey = getRel child (rkey.drop l) := by
  obtain ⟨-, hk⟩ := findContainingPfx_pos hf
  cases rkey with
  | nil => exact absurd rfl hk
  | cons a as =>
    rw [getRel]
    · split
      · rename_i e herr
        rw [hf] at herr
        exact absurd herr (by simp)
      · rename_i p2 l2 child2 hok
        rw [hf] at hok
        simp only [Except.ok.injEq, Prod.mk.injEq] at hok
        obtain ⟨rfl, rfl, rfl⟩ := hok
        rfl

theorem delRel_nil_none {α : Type} (pch : List Key) (suffix : Key)
    (cs : List (Key × Trie α)) :
    delRel pch suffix (.mk (none : Option α) cs) [] =
      .error "No content in requested key (del)." := by
  rw [delRel]

theorem delRel_nil_some {α : Type} (pch : List Key) (suffix : Key) (v : α)
    (cs : List (Key × Trie α)) :
    delRel pch suffix (.mk (some v) cs) [] =
      .ok ((compact pch suffix (.mk none cs)).1,
           .delete (pch ++ [suffix]) v :: (compact pch suffix (.mk none cs)).2) := by
  rw [delRel]

theorem delRel_err {α : Type} (pch : List Key) (suffix : Key) (c : Option α)
    (cs : List (Key × Trie α)) {rkey : Key} (hk : rkey ≠ []) {e : String}
    (hf : findContainingPfx cs rkey = .error e) :
    delRel pch suffix (.mk c cs) rkey = .error e := by
  cases rkey with
  | nil => exact absurd rfl hk
  | cons a as =>
    rw [delRel]
    · split
      · rename_i e2 herr
        rw [hf] at herr
        exact (Except.error.inj herr) ▸ rfl
      · rename_i p l child hok
        rw [hf] at hok
        exact absurd hok (by simp)

theorem delRel_step {α : Type} (pch : List Key) (suffix : Key) (c : Option α)
    (cs : List (Key × Trie α)) {rkey p : Key} {l : Nat} {child : Trie α}
    (hf : findContainingPfx cs rkey = .ok (p, l, child)) :
    delRel pch suffix (.mk c cs) rkey =
      (match delRel (pch ++ [suffix]) p child (rkey.drop l) with
       | .error e => .error e
       | .ok (.keep child2, evs) => .ok (.keep (.mk c (replaceKey cs p child2)), evs)
       | .ok (.remove, evs) =>
         .ok ((compact pch suffix (.mk c (eraseKey cs p))).1,
              evs ++ (compact pch suffix (.mk c (eraseKey cs p))).2)
       | .ok (.merged s2 gc, evs) =>
         .ok ((compact pch suffix (.mk c (eraseKey cs p ++ [(s2, gc)]))).1,
              evs ++ (compact pch suffix (.mk c (eraseKey cs p ++ [(s2, gc)]))).2)) := by
  obtain ⟨-, hk⟩ := findContainingPfx_pos hf
  cases rkey with
  | nil => exact absurd rfl hk
  | cons a as =>
    rw [delRel]
    · split
      · rename_i e herr
        rw [hf] at herr
        exact absurd herr (by simp)
      · rename_i p2 l2 child2 hok
        rw [hf] at hok
        simp only [Except.ok.injEq, Prod.mk.injEq] at hok
        obtain ⟨rfl, rfl, rfl⟩ := hok
        rfl


theorem lookupA_append {β : Type} (xs ys : List (Key × β)) (k : Key) :
    lookupA (xs ++ ys) k =
      (match lookupA xs k with
       | some v => some v
       | none => lookupA ys k) := by
  induction xs with
  | nil => simp [lookupA]
  | cons e rest ih =>
    obtain ⟨q, v⟩ := e
    by_cases hq : q = k
    · simp [lookupA, hq]
    · simp [lookupA, hq, ih]

theorem lookupA_eq_none {β : Type} {xs : List (Key × β)} {k : Key}
    (h : ∀ e ∈ xs, e.1 ≠ k) : lookupA xs k = none := by
  induction xs with
  | nil => rfl
  | cons e rest ih =>
    obtain ⟨q, v⟩ := e
    have hq : q ≠ k := h (q, v) (List.mem_cons_self _ _)
    simp only [lookupA, if_neg hq]
    exact ih (fun f hf => h f (List.mem_cons_of_mem _ hf))

theorem lookupA_map_pre {α : Type} (bs : List (Key × α)) (p r : Key) :
    lookupA (bs.map (fun b => (p ++ b.1, b.2))) (p ++ r) = lookupA bs r := by
  induction bs with
  | nil => rfl
  | cons b rest ih =>
    obtain ⟨q, v⟩ := b
    by_cases hq : q = r
    · simp [lookupA, hq]
    · have : p ++ q ≠ p ++ r := fun hc => hq (List.append_cancel_left hc)
      simp [lookupA, hq, this, ih]

theorem lookupA_map_pre_none {α : Type} (bs : List (Key × α)) (p k : Key)
    (h : ∀ r : Key, k ≠ p ++ r) :
    lookupA (bs.map (fun b => (p ++ b.1, b.2))) k = none := by
  apply lookupA_eq_none
  intro e he
  obtain ⟨b, hb, rfl⟩ := List.mem_map.mp he
  exact fun hc => h b.1 hc.symm

theorem mem_eraseKey {α : Type} {cs : List (Key × Trie α)} {q : Key}
    {e : Key × Trie α} (h : e ∈ eraseKey cs q) : e ∈ cs := by
  induction cs with
  | nil => simpa [eraseKey] using h
  | cons f rest ih =>
    obtain ⟨p, c⟩ := f
    simp only [eraseKey] at h
    split at h
    · exact List.mem_cons_of_mem _ h
    · rcases List.mem_cons.mp h with rfl | h2
      · exact List.mem_cons_self _ _
      · exact List.mem_cons_of_mem _ (ih h2)

theorem eraseKey_sublist {α : Type} (cs : List (Key × Trie α)) (q : Key) :
    (eraseKey cs q).Sublist cs := by
  induction cs with
  | nil => simp [eraseKey]
  | cons f rest ih =>
    obtain ⟨p, c⟩ := f
    simp only [eraseKey]
    split
    · exact List.sublist_cons_self _ _
    · exact ih.cons₂ _

theorem mem_replaceKey {α : Type} {cs : List (Key × Trie α)} {q : Key} {t : Trie α}
    {e : Key × Trie α} (h : e ∈ replaceKey cs q t) : e ∈ cs ∨ e = (q, t) := by
  induction cs with
  | nil => simp [replaceKey] at h
  | cons f rest ih =>
    obtain ⟨p, c⟩ := f
    simp only [replaceKey] at h
    split at h
    · rename_i hpq
      rcases List.mem_cons.mp h with rfl | h2
      · right; rw [hpq]
      · exact Or.inl (List.mem_cons_of_mem _ h2)
    · rcases List.mem_cons.mp h with rfl | h2
      · exact Or.inl (List.mem_cons_self _ _)
      · rcases ih h2 with h3 | h3
        · exact Or.inl (List.mem_cons_of_mem _ h3)
        · exact Or.inr h3

theorem replaceKey_map_fst {α : Type} (cs : List (Key × Trie α)) (q : Key) (t : Trie α) :
    (replaceKey cs q t).map Prod.fst = cs.map Prod.fst := by
  induction cs with
  | nil => rfl
  | cons f rest ih =>
    obtain ⟨p, c⟩ := f
    simp only [replaceKey]
    split
    · simp
    · simp [ih]

theorem sizeList_nil {α : Type} : Trie.sizeList ([] : List (Key × Trie α)) = 0 := rfl

theorem sizeList_cons {α : Type} (p : Key) (c : Trie α) (rest : List (Key × Trie α)) :
    Trie.sizeList ((p, c) :: rest) = c.size + Trie.sizeList rest := rfl

theorem size_mk {α : Type} (c : Option α) (cs : List (Key × Trie α)) :
    (Trie.mk c cs).size = 1 + Trie.sizeList cs := rfl

theorem sizeList_append {α : Type} (xs ys : List (Key × Trie α)) :
    Trie.sizeList (xs ++ ys) = Trie.sizeList xs + Trie.sizeList ys := by
  induction xs with
  | nil => rw [List.nil_append, sizeList_nil]; omega
  | cons e rest ih =>
    obtain ⟨p, c⟩ := e
    rw [List.cons_append, sizeList_cons, sizeList_cons, ih]
    omega

theorem size_pos {α : Type} (t : Trie α) : 1 ≤ t.size := by
  obtain ⟨c, cs⟩ := t
  rw [size_mk]
  omega

theorem sizeList_eraseKey_le {α : Type} (cs : List (Key × Trie α)) (q : Key) :
    Trie.sizeList (eraseKey cs q) ≤ Trie.sizeList cs := by
  induction cs with
  | nil => simp [eraseKey]
  | cons f rest ih =>
    obtain ⟨p, c⟩ := f
    by_cases hpq : p = q
    · simp only [eraseKey, if_pos hpq, sizeList_cons]
      have := size_pos c
      omega
    · simp only [eraseKey, if_neg hpq, sizeList_cons]
      omega

theorem sizeList_eraseKey_add {α : Type} {cs : List (Key × Trie α)} {q : Key}
    {c : Trie α} (hm : (q, c) ∈ cs) (hnd : (cs.map Prod.fst).Nodup) :
    Trie.sizeList cs = Trie.sizeList (eraseKey cs q) + c.size := by
  induction cs with
  | nil => simp at hm
  | cons f rest ih =>
    obtain ⟨p, d⟩ := f
    rcases List.mem_cons.mp hm with hf | hm2
    · obtain ⟨rfl, rfl⟩ : p = q ∧ d = c := by
        have h1 := congrArg Prod.fst hf
        have h2 := congrArg Prod.snd hf
        exact ⟨h1.symm, h2.symm⟩
      simp only [eraseKey, eq_self_iff_true, if_true, sizeList_cons]
      omega
    · have hpq : p ≠ q := by
        intro hc; subst hc
        have : p ∈ rest.map Prod.fst := List.mem_map.mpr ⟨(p, c), hm2, rfl⟩
        simp only [List.map_cons, List.nodup_cons] at hnd
        exact hnd.1 this
      simp only [eraseKey, if_neg hpq, sizeList_cons]
      have := ih hm2 (by simp only [List.map_cons, List.nodup_cons] at hnd; exact hnd.2)
      omega

theorem sizeList_replaceKey {α : Type} {cs : List (Key × Trie α)} {q : Key}
    {c : Trie α} (hm : (q, c) ∈ cs) (hnd : (cs.map Prod.fst).Nodup) (t : Trie α) :
    Trie.sizeList (replaceKey cs q t) + c.size = Trie.sizeList cs + t.size := by
  induction cs with
  | nil => simp at hm
  | cons f rest ih =>
    obtain ⟨p, d⟩ := f
    rcases List.mem_cons.mp hm with hf | hm2
    · obtain ⟨rfl, rfl⟩ : p = q ∧ d = c := by
        have h1 := congrArg Prod.fst hf
        have h2 := congrArg Prod.snd hf
        exact ⟨h1.symm, h2.symm⟩
      simp only [replaceKey, eq_self_iff_true, if_true, sizeList_cons]
      omega
    · have hpq : p ≠ q := by
        intro hc; subst hc
        have : p ∈ rest.map Prod.fst := List.mem_map.mpr ⟨(p, c), hm2, rfl⟩
        simp only [List.map_cons, List.nodup_cons] at hnd
        exact hnd.1 this
      simp only [replaceKey, if_neg hpq, sizeList_cons]
      have := ih hm2 (by simp only [List.map_cons, List.nodup_cons] at hnd; exact hnd.2)
      omega


theorem commonPfx_heads_ne {x y : Char} {xs ys : Key}
    (h : commonPfx (x :: xs) (y :: ys) = []) : x ≠ y := by
  intro hxy
  rw [commonPfx_cons_cons, if_pos hxy] at h
  simp at h

theorem append_ne_of_commonPfx_nil {p q : Key} (hp : p ≠ []) (hq : q ≠ [])
    (h : commonPfx p q = []) (r s : Key) : p ++ r ≠ q ++ s := by
  obtain ⟨x, xs, rfl⟩ := List.exists_cons_of_ne_nil hp
  obtain ⟨y, ys, rfl⟩ := List.exists_cons_of_ne_nil hq
  have hxy := commonPfx_heads_ne h
  intro hc
  simp only [List.cons_append, List.cons_eq_cons] at hc
  exact hxy hc.1

theorem commonPfx_ne_nil_of_pre {p r : Key} (hp : p ≠ []) (k : Key)
    (hk : k = p ++ r) : commonPfx p k ≠ [] := by
  subst hk
  rw [commonPfx_append]
  exact hp

theorem disjInv_mk {α : Type} (c : Option α) (cs : List (Key × Trie α)) :
    disjInv (.mk c cs) = disjInvList cs := rfl

theorem disjInvList_nil {α : Type} : disjInvList ([] : List (Key × Trie α)) = true := rfl

theorem disjInvList_cons {α : Type} (k : Key) (t : Trie α) (rest : List (Key × Trie α)) :
    disjInvList ((k, t) :: rest) = true ↔
      k ≠ [] ∧ (∀ e ∈ rest, commonPfx k e.1 = []) ∧ disjInv t = true ∧
        disjInvList rest = true := by
  show (!k.isEmpty && rest.all (fun e => (commonPfx k e.1).isEmpty) &&
      disjInv t && disjInvList rest) = true ↔ _
  simp only [Bool.and_eq_true, List.all_eq_true, Bool.not_eq_true', List.isEmpty_iff,
    List.isEmpty_eq_false]
  constructor
  · rintro ⟨⟨⟨h1, h2⟩, h3⟩, h4⟩
    exact ⟨h1, h2, h3, h4⟩
  · rintro ⟨h1, h2, h3, h4⟩
    exact ⟨⟨⟨h1, h2⟩, h3⟩, h4⟩

theorem disjInvList_iff {α : Type} (cs : List (Key × Trie α)) :
    disjInvList cs = true ↔
      (∀ e ∈ cs, e.1 ≠ [] ∧ disjInv e.2 = true) ∧
        cs.Pairwise (fun a b => commonPfx a.1 b.1 = []) := by
  induction cs with
  | nil => simp [disjInvList_nil]
  | cons e rest ih =>
    obtain ⟨k, t⟩ := e
    rw [disjInvList_cons, ih]
    constructor
    · rintro ⟨h1, h2, h3, h4, h5⟩
      refine ⟨?_, List.Pairwise.cons h2 h5⟩
      intro f hf
      rcases List.mem_cons.mp hf with rfl | hf2
      · exact ⟨h1, h3⟩
      · exact h4 f hf2
    · rintro ⟨h1, h2⟩
      obtain ⟨hk, ht⟩ := h1 (k, t) (List.mem_cons_self _ _)
      rcases List.pairwise_cons.mp h2 with ⟨hh, hrest⟩
      exact ⟨hk, hh, ht, fun f hf => h1 f (List.mem_cons_of_mem _ hf), hrest⟩

theorem disjInvList_mem {α : Type} {cs : List (Key × Trie α)}
    (h : disjInvList cs = true) {e : Key × Trie α} (he : e ∈ cs) :
    e.1 ≠ [] ∧ disjInv e.2 = true :=
  ((disjInvList_iff cs).mp h).1 e he

theorem disjInvList_pairwise {α : Type} {cs : List (Key × Trie α)}
    (h : disjInvList cs = true) :
    cs.Pairwise (fun a b => commonPfx a.1 b.1 = []) :=
  ((disjInvList_iff cs).mp h).2

theorem disjInvList_of_sublist {α : Type} {cs ds : List (Key × Trie α)}
    (hsub : cs.Sublist ds) (h : disjInvList ds = true) : disjInvList cs = true := by
  rw [disjInvList_iff]
  exact ⟨fun e he => disjInvList_mem h (hsub.subset he),
         (disjInvList_pairwise h).sublist hsub⟩

theorem disjInvList_keys_nodup {α : Type} {cs : List (Key × Trie α)}
    (h : disjInvList cs = true) : (cs.map Prod.fst).Nodup := by
  induction cs with
  | nil => simp
  | cons e rest ih =>
    obtain ⟨k, t⟩ := e
    obtain ⟨hk, hdisj, -, hrest⟩ := (disjInvList_cons k t rest).mp h
    rw [List.map_cons, List.nodup_cons]
    refine ⟨?_, ih hrest⟩
    intro hkmem
    obtain ⟨f, hf, hfk⟩ := List.mem_map.mp hkmem
    have := hdisj f hf
    rw [hfk, commonPfx_self] at this
    exact hk this

theorem disjInvList_append_one {α : Type} {cs : List (Key × Trie α)} {k : Key}
    {t : Trie α} (h : disjInvList cs = true) (hk : k ≠ []) (ht : disjInv t = true)
    (hdisj : ∀ e ∈ cs, commonPfx e.1 k = []) :
    disjInvList (cs ++ [(k, t)]) = true := by
  rw [disjInvList_iff]
  refine ⟨?_, ?_⟩
  · intro e he
    rcases List.mem_append.mp he with he2 | he2
    · exact disjInvList_mem h he2
    · obtain rfl : e = (k, t) := by simpa using he2
      exact ⟨hk, ht⟩
  · rw [List.pairwise_append]
    refine ⟨disjInvList_pairwise h, by simp, ?_⟩
    intro a ha b hb
    obtain rfl : b = (k, t) := by simpa using hb
    exact hdisj a ha

theorem disjInvList_replaceKey {α : Type} {cs : List (Key × Trie α)} {q : Key}
    {t : Trie α} (h : disjInvList cs = true) (ht : disjInv t = true) :
    disjInvList (replaceKey cs q t) = true := by
  induction cs with
  | nil => rw [replaceKey]; exact h
  | cons e rest ih =>
    obtain ⟨p, c⟩ := e
    obtain ⟨hp, hdisj, hc, hrest⟩ := (disjInvList_cons p c rest).mp h
    by_cases hpq : p = q
    · rw [replaceKey, if_pos hpq]
      exact (disjInvList_cons p t rest).mpr ⟨hp, hdisj, ht, hrest⟩
    · rw [replaceKey, if_neg hpq]
      refine (disjInvList_cons p c (replaceKey rest q t)).mpr
        ⟨hp, ?_, hc, ih hrest⟩
      intro f hf
      rcases mem_replaceKey hf with hf2 | rfl
      · exact hdisj f hf2
      · -- the replaced entry keeps key q; an entry with key q must have
        -- been in rest for the replacement to differ from rest
        by_cases hq : ∃ d, (q, d) ∈ rest
        · obtain ⟨d, hd⟩ := hq
          exact hdisj (q, d) hd
        · -- no entry with key q: replaceKey rest q t = rest, so (q, t) ∈ rest
          exfalso
          have : replaceKey rest q t = rest := by
            clear ih hdisj hrest hf h
            induction rest with
            | nil => rfl
            | cons g rs ihr =>
              obtain ⟨a, b⟩ := g
              have ha : a ≠ q := fun hc2 => hq ⟨b, by rw [hc2]; exact List.mem_cons_self _ _⟩
              rw [replaceKey, if_neg ha, ihr]
              intro ⟨d, hd⟩
              exact hq ⟨d, List.mem_cons_of_mem _ hd⟩
          rw [this] at hf
          exact hq ⟨t, hf⟩

theorem compactInv_mk {α : Type} (c : Option α) (cs : List (Key × Trie α)) :
    compactInv (.mk c cs) = ((c.isSome || decide (2 ≤ cs.length)) && compactInvList cs) := rfl

theorem compactInvList_iff {α : Type} (cs : List (Key × Trie α)) :
    compactInvList cs = true ↔ ∀ e ∈ cs, compactInv e.2 = true := by
  induction cs with
  | nil => simp [compactInvList]
  | cons e rest ih =>
    obtain ⟨k, t⟩ := e
    show (compactInv t && compactInvList rest) = true ↔ _
    rw [Bool.and_eq_true, ih]
    constructor
    · rintro ⟨h1, h2⟩ f hf
      rcases List.mem_cons.mp hf with rfl | hf2
      · exact h1
      · exact h2 f hf2
    · intro h
      exact ⟨h (k, t) (List.mem_cons_self _ _), fun f hf => h f (List.mem_cons_of_mem _ hf)⟩

theorem compactInvList_of_sublist {α : Type} {cs ds : List (Key × Trie α)}
    (hsub : cs.Sublist ds) (h : compactInvList ds = true) : compactInvList cs = true := by
  rw [compactInvList_iff]
  exact fun e he => (compactInvList_iff ds).mp h e (hsub.subset he)

theorem compactInvList_replaceKey {α : Type} {cs : List (Key × Trie α)} {q : Key}
    {t : Trie α} (h : compactInvList cs = true) (ht : compactInv t = true) :
    compactInvList (replaceKey cs q t) = true := by
  rw [compactInvList_iff]
  intro e he
  rcases mem_replaceKey he with he2 | rfl
  · exact (compactInvList_iff cs).mp h e he2
  · exact ht

theorem compactInvList_append_one {α : Type} {cs : List (Key × Trie α)} {k : Key}
    {t : Trie α} (h : compactInvList cs = true) (ht : compactInv t = true) :
    compactInvList (cs ++ [(k, t)]) = true := by
  rw [compactInvList_iff]
  intro e he
  rcases List.mem_append.mp he with he2 | he2
  · exact (compactInvList_iff cs).mp h e he2
  · obtain rfl : e = (k, t) := by simpa using he2
    exact ht

theorem findBestPfx_unique {α : Type} {cs : List (Key × Trie α)} {rkey p : Key}
    {l : Nat} {c : Trie α} (hd : disjInvList cs = true)
    (h : findBestPfx cs rkey = some (p, l, c)) :
    ∀ e ∈ cs, commonPfx e.1 rkey ≠ [] → e = (p, c) := by
  induction cs with
  | nil => simp [findBestPfx] at h
  | cons f rest ih =>
    obtain ⟨q, d⟩ := f
    obtain ⟨hq, hdisj, -, hrest⟩ := (disjInvList_cons q d rest).mp hd
    intro e he hce
    simp only [findBestPfx] at h
    split at h
    · rename_i hqnil
      rcases List.mem_cons.mp he with rfl | he2
      · exact absurd hqnil hce
      · exact ih hrest h e he2 hce
    · rename_i hqne
      obtain ⟨rfl, -, rfl⟩ : q = p ∧ (commonPfx q rkey).length = l ∧ d = c := by
        simpa using h
      rcases List.mem_cons.mp he with rfl | he2
      · rfl
      · exfalso
        have h1 := hdisj e he2
        have h2 := commonPfx_head_trans hce hqne
        rw [commonPfx_comm_nil h1] at h2
        exact h2 rfl

theorem findBestPfx_of_mem {α : Type} {cs : List (Key × Trie α)} {rkey p : Key}
    {c : Trie α} (hd : disjInvList cs = true) (hm : (p, c) ∈ cs)
    (hc : commonPfx p rkey ≠ []) :
    findBestPfx cs rkey = some (p, (commonPfx p rkey).length, c) := by
  induction cs with
  | nil => simp at hm
  | cons f rest ih =>
    obtain ⟨q, d⟩ := f
    obtain ⟨hq, hdisj, -, hrest⟩ := (disjInvList_cons q d rest).mp hd
    rcases List.mem_cons.mp hm with hf | hm2
    · obtain ⟨rfl, rfl⟩ : q = p ∧ d = c :=
        ⟨(congrArg Prod.fst hf).symm, (congrArg Prod.snd hf).symm⟩
      simp only [findBestPfx, if_neg hc]
    · have hqp : commonPfx q rkey = [] := by
        by_contra hqc
        have h2 := commonPfx_head_trans hqc hc
        exact h2 (hdisj (p, c) hm2)
      simp only [findBestPfx, if_pos hqp]
      exact ih hrest hm2

theorem findBestPfx_none_of {α : Type} {cs : List (Key × Trie α)} {rkey : Key}
    (h : ∀ e ∈ cs, commonPfx e.1 rkey = []) : findBestPfx cs rkey = none := by
  induction cs with
  | nil => rfl
  | cons f rest ih =>
    obtain ⟨q, d⟩ := f
    have hq := h (q, d) (List.mem_cons_self _ _)
    simp only [findBestPfx, if_pos hq]
    exact ih (fun e he => h e (List.mem_cons_of_mem _ he))
theorem bindings_mk_none {α : Type} (cs : List (Key × Trie α)) :
    bindings (.mk none cs) = bindingsList cs := rfl

theorem bindings_mk_some {α : Type} (v : α) (cs : List (Key × Trie α)) :
    bindings (.mk (some v) cs) = ([], v) :: bindingsList cs := rfl

theorem bindingsList_nil {α : Type} : bindingsList ([] : List (Key × Trie α)) = [] := rfl

theorem bindingsList_cons {α : Type} (k : Key) (t : Trie α) (rest : List (Key × Trie α)) :
    bindingsList ((k, t) :: rest) =
      (bindings t).map (fun b => (k ++ b.1, b.2)) ++ bindingsList rest := rfl

theorem mem_bindingsList {α : Type} {cs : List (Key × Trie α)} {b : Key × α} :
    b ∈ bindingsList cs ↔
      ∃ e ∈ cs, ∃ b2 ∈ bindings e.2, b = (e.1 ++ b2.1, b2.2) := by
  induction cs with
  | nil =>
    rw [bindingsList_nil]
    constructor
    · intro h; simp at h
    · rintro ⟨e, he, -⟩; simp at he
  | cons e rest ih =>
    obtain ⟨k, t⟩ := e
    rw [bindingsList_cons]
    simp only [List.mem_append, List.mem_map, ih, List.mem_cons]
    constructor
    · rintro (⟨b2, hb2, rfl⟩ | ⟨f, hf, b2, hb2, rfl⟩)
      · exact ⟨(k, t), Or.inl rfl, b2, hb2, rfl⟩
      · exact ⟨f, Or.inr hf, b2, hb2, rfl⟩
    · rintro ⟨f, hf | hf, b2, hb2, rfl⟩
      · subst hf
        exact Or.inl ⟨b2, hb2, rfl⟩
      · exact Or.inr ⟨f, hf, b2, hb2, rfl⟩

/-- If no child suffix is a prefix of `k`, the children's bindings hold
nothing under `k`. -/
theorem lookupA_bindingsList_none {α : Type} {cs : List (Key × Trie α)} {k : Key}
    (hd : disjInvList cs = true)
    (h : ∀ e ∈ cs, ∀ r : Key, k ≠ e.1 ++ r) :
    lookupA (bindingsList cs) k = none := by
  apply lookupA_eq_none
  intro b hb
  obtain ⟨e, he, b2, hb2, rfl⟩ := mem_bindingsList.mp hb
  exact fun hc => h e he b2.1 hc.symm

/-- On a trie whose children satisfy disjointness, the bindings below a
child `(p, child)` are exactly those with keys extending `p`, so looking
up `p ++ r` in the children's bindings is looking up `r` below the
child. -/
theorem lookupA_bindingsList_pre {α : Type} {cs : List (Key × Trie α)} {p : Key}
    {child : Trie α} (hd : disjInvList cs = true) (hm : (p, child) ∈ cs) (r : Key) :
    lookupA (bindingsList cs) (p ++ r) = lookupA (bindings child) r := by
  induction cs with
  | nil => simp at hm
  | cons e rest ih =>
    obtain ⟨q, d⟩ := e
    obtain ⟨hq, hdisj, -, hrest⟩ := (disjInvList_cons q d rest).mp hd
    rw [bindingsList_cons, lookupA_append]
    rcases List.mem_cons.mp hm with hf | hm2
    · have h1 : p = q := congrArg Prod.fst hf
      have h2s : child = d := congrArg Prod.snd hf
      subst h1
      subst h2s
      rw [lookupA_map_pre]
      cases h2 : lookupA (bindings child) r with
      | some v => rfl
      | none =>
        refine lookupA_bindingsList_none hrest ?_
        intro e he s
        have hep := hdisj e he
        have he1 : e.1 ≠ [] := (disjInvList_mem hrest he).1
        exact append_ne_of_commonPfx_nil hq he1 hep r s
    · have hp : p ≠ [] := (disjInvList_mem hrest hm2).1
      have hqp : commonPfx q p = [] := hdisj (p, child) hm2
      have hne : ∀ s : Key, p ++ r ≠ q ++ s := fun s =>
        (append_ne_of_commonPfx_nil hp hq (commonPfx_comm_nil hqp) r s)
      rw [lookupA_map_pre_none _ _ _ hne]
      exact ih hrest hm2

theorem lookupA_bindings_cons {α : Type} (c : Option α) (cs : List (Key × Trie α))
    (a : Char) (as : Key) :
    lookupA (bindings (Trie.mk c cs)) (a :: as) = lookupA (bindingsList cs) (a :: as) := by
  cases c with
  | none => rw [bindings_mk_none]
  | some v =>
    rw [bindings_mk_some]
    show (if [] = a :: as then some v else lookupA (bindingsList cs) (a :: as)) = _
    rw [if_neg (by simp)]

theorem commonPfx_full_eq {p k : Key} (h : (commonPfx p k).length = p.length) :
    commonPfx p k = p := by
  have h1 := commonPfx_take_left p k
  rw [h, List.take_length] at h1
  exact h1.symm

theorem key_split_of_containing {α : Type} {cs : List (Key × Trie α)} {k p : Key}
    {l : Nat} {child : Trie α} (h : findContainingPfx cs k = .ok (p, l, child)) :
    k = p ++ k.drop l ∧ (p, child) ∈ cs ∧ l = p.length := by
  obtain ⟨hb, hl⟩ := findContainingPfx_ok h
  obtain ⟨hm, hc, hlen⟩ := findBestPfx_some hb
  have hcp : commonPfx p k = p := commonPfx_full_eq (by rw [← hlen, hl])
  have htake : k.take l = p := by
    have := commonPfx_take_right p k
    rw [hcp] at this
    rw [hlen, hcp]
    exact this
  refine ⟨?_, hm, hl⟩
  conv_lhs => rw [← List.take_append_drop l k]
  rw [htake]

theorem findContainingPfx_err_best {α : Type} {cs : List (Key × Trie α)} {k p : Key}
    {l : Nat} {c : Trie α} {e : String} (hb : findBestPfx cs k = some (p, l, c))
    (h : findContainingPfx cs k = .error e) : ¬ l = p.length := by
  intro hl
  unfold findContainingPfx at h
  rw [hb] at h
  simp [hl] at h

/-- Under sibling disjointness, `_get_relative` computes exactly the
association of the key in the list of bindings of the subtree: the trie
is a correct finite map. -/
theorem getRel_toOption_eq {α : Type} : ∀ (n : Nat) (k : Key) (t : Trie α),
    k.length ≤ n → disjInv t = true →
    (getRel t k).toOption = lookupA (bindings t) k := by
  intro n
  induction n with
  | zero =>
    intro k t hk hd
    obtain rfl : k = [] := List.length_eq_zero.mp (Nat.le_zero.mp hk)
    obtain ⟨c, cs⟩ := t
    rw [getRel_nil]
    cases c with
    | some v => rw [bindings_mk_some]; rfl
    | none =>
      rw [bindings_mk_none]
      show (none : Option α) = _
      symm
      refine lookupA_bindingsList_none hd ?_
      intro e he r hc
      have h1 := (disjInvList_mem hd he).1
      exact h1 (List.append_eq_nil.mp hc.symm).1
  | succ n ih =>
    intro k t hk hd
    obtain ⟨c, cs⟩ := t
    cases k with
    | nil =>
      rw [getRel_nil]
      cases c with
      | some v => rw [bindings_mk_some]; rfl
      | none =>
        rw [bindings_mk_none]
        show (none : Option α) = _
        symm
        refine lookupA_bindingsList_none hd ?_
        intro e he r hc
        have h1 := (disjInvList_mem hd he).1
        exact h1 (List.append_eq_nil.mp hc.symm).1
    | cons a as =>
      cases hfc : findContainingPfx cs (a :: as) with
      | error e =>
        rw [getRel_err c cs (by simp) hfc, lookupA_bindings_cons]
        show (none : Option α) = _
        symm
        refine lookupA_bindingsList_none hd ?_
        intro f hf r hc
        have hf1 : f.1 ≠ [] := (disjInvList_mem hd hf).1
        have hcne : commonPfx f.1 (a :: as) ≠ [] :=
          commonPfx_ne_nil_of_pre hf1 _ hc
        cases hb : findBestPfx cs (a :: as) with
        | none => exact hcne (findBestPfx_none hb f hf)
        | some best =>
          obtain ⟨p, l, child⟩ := best
          have hne : ¬ l = p.length := findContainingPfx_err_best hb hfc
          have hfeq := findBestPfx_unique hd hb f hf hcne
          obtain ⟨-, -, hlen⟩ := findBestPfx_some hb
          apply hne
          have hp1 : f.1 = p := congrArg Prod.fst hfeq
          rw [hlen, ← hp1]
          rw [hc, commonPfx_append]
      | ok found =>
        obtain ⟨p, l, child⟩ := found
        obtain ⟨hsplit, hm, hl⟩ := key_split_of_containing hfc
        rw [getRel_step c cs hfc, lookupA_bindings_cons]
        have hdc : disjInv child = true := (disjInvList_mem hd hm).2
        have hlen : ((a :: as).drop l).length ≤ n := by
          obtain ⟨hpos, -⟩ := findContainingPfx_pos hfc
          simp only [List.length_drop, List.length_cons] at hk ⊢
          omega
        rw [ih _ child hlen hdc]
        conv_rhs => rw [hsplit]
        exact (lookupA_bindingsList_pre hd hm _).symm
theorem commonPfx_comm_nil2 {a b : Key} (h : commonPfx a b ≠ []) :
    commonPfx b a ≠ [] := fun hc => h (commonPfx_comm_nil hc)

theorem bindingsList_append {α : Type} (xs ys : List (Key × Trie α)) :
    bindingsList (xs ++ ys) = bindingsList xs ++ bindingsList ys := by
  induction xs with
  | nil => rw [List.nil_append, bindingsList_nil, List.nil_append]
  | cons e rest ih =>
    obtain ⟨k, t⟩ := e
    rw [List.cons_append, bindingsList_cons, bindingsList_cons, ih, List.append_assoc]

theorem replaceKey_length {α : Type} (cs : List (Key × Trie α)) (q : Key) (t : Trie α) :
    (replaceKey cs q t).length = cs.length := by
  have := congrArg List.length (replaceKey_map_fst cs q t)
  simpa using this

theorem eraseKey_length_of_mem {α : Type} {cs : List (Key × Trie α)} {q : Key}
    {c : Trie α} (hm : (q, c) ∈ cs) :
    (eraseKey cs q).length + 1 = cs.length := by
  induction cs with
  | nil => simp at hm
  | cons e rest ih =>
    obtain ⟨p, d⟩ := e
    by_cases hpq : p = q
    · rw [eraseKey, if_pos hpq]
      simp
    · rw [eraseKey, if_neg hpq]
      have hm2 : (q, c) ∈ rest := by
        rcases List.mem_cons.mp hm with hf | hf
        · exact absurd (congrArg Prod.fst hf).symm hpq
        · exact hf
      simp only [List.length_cons]
      rw [← ih hm2]

theorem eraseKey_key_ne {α : Type} {cs : List (Key × Trie α)} {q : Key}
    (hnd : (cs.map Prod.fst).Nodup) : ∀ e ∈ eraseKey cs q, e.1 ≠ q := by
  induction cs with
  | nil => intro e he; simp [eraseKey] at he
  | cons f rest ih =>
    obtain ⟨p, d⟩ := f
    rw [List.map_cons, List.nodup_cons] at hnd
    intro e he
    by_cases hpq : p = q
    · rw [eraseKey, if_pos hpq] at he
      intro hc
      subst hpq
      exact hnd.1 (List.mem_map.mpr ⟨e, he, hc⟩)
    · rw [eraseKey, if_neg hpq] at he
      rcases List.mem_cons.mp he with rfl | he2
      · exact hpq
      · exact ih hnd.2 e he2

theorem mem_eraseKey_of_ne {α : Type} {cs : List (Key × Trie α)} {q : Key}
    {e : Key × Trie α} (he : e ∈ cs) (hne : e.1 ≠ q) : e ∈ eraseKey cs q := by
  induction cs with
  | nil => simp at he
  | cons f rest ih =>
    obtain ⟨p, d⟩ := f
    by_cases hpq : p = q
    · rw [eraseKey, if_pos hpq]
      rcases List.mem_cons.mp he with rfl | he2
      · exact absurd hpq hne
      · exact he2
    · rw [eraseKey, if_neg hpq]
      rcases List.mem_cons.mp he with rfl | he2
      · exact List.mem_cons_self _ _
      · exact List.mem_cons_of_mem _ (ih he2)

theorem mem_replaceKey_self {α : Type} {cs : List (Key × Trie α)} {q : Key}
    {c : Trie α} (hm : (q, c) ∈ cs) (t : Trie α) : (q, t) ∈ replaceKey cs q t := by
  induction cs with
  | nil => simp at hm
  | cons f rest ih =>
    obtain ⟨p, d⟩ := f
    by_cases hpq : p = q
    · rw [replaceKey, if_pos hpq, hpq]
      exact List.mem_cons_self _ _
    · rw [replaceKey, if_neg hpq]
      have hm2 : (q, c) ∈ rest := by
        rcases List.mem_cons.mp hm with hf | hf
        · exact absurd (congrArg Prod.fst hf).symm hpq
        · exact hf
      exact List.mem_cons_of_mem _ (ih hm2)

theorem mem_replaceKey_of_ne {α : Type} {cs : List (Key × Trie α)} {q : Key}
    {e : Key × Trie α} (he : e ∈ cs) (hne : e.1 ≠ q) (t : Trie α) :
    e ∈ replaceKey cs q t := by
  induction cs with
  | nil => simp at he
  | cons f rest ih =>
    obtain ⟨p, d⟩ := f
    by_cases hpq : p = q
    · rw [replaceKey, if_pos hpq]
      rcases List.mem_cons.mp he with rfl | he2
      · exact absurd hpq hne
      · exact List.mem_cons_of_mem _ he2
    · rw [replaceKey, if_neg hpq]
      rcases List.mem_cons.mp he with rfl | he2
      · exact List.mem_cons_self _ _
      · exact List.mem_cons_of_mem _ (ih he2)

theorem entry_eq_of_key_eq {α : Type} {cs : List (Key × Trie α)}
    (hnd : (cs.map Prod.fst).Nodup) {p : Key} {c : Trie α} {e : Key × Trie α}
    (hp : (p, c) ∈ cs) (he : e ∈ cs) (hk : e.1 = p) : e = (p, c) := by
  induction cs with
  | nil => simp at hp
  | cons f rest ih =>
    rw [List.map_cons, List.nodup_cons] at hnd
    rcases List.mem_cons.mp hp with hf1 | hp2
    · rcases List.mem_cons.mp he with rfl | he2
      · exact hf1.symm
      · exfalso
        apply hnd.1
        rw [← hf1]
        exact List.mem_map.mpr ⟨e, he2, hk⟩
    · rcases List.mem_cons.mp he with rfl | he2
      · exfalso
        apply hnd.1
        rw [hk]
        exact List.mem_map.mpr ⟨(p, c), hp2, rfl⟩
      · exact ih hnd.2 hp2 he2

theorem disjInvList_disjoint_of_mem {α : Type} {cs : List (Key × Trie α)}
    (hd : disjInvList cs = true) {e f : Key × Trie α} (he : e ∈ cs) (hf : f ∈ cs)
    (hne : e ≠ f) : commonPfx e.1 f.1 = [] := by
  have hsymm : Symmetric (fun a b : Key × Trie α => commonPfx a.1 b.1 = []) :=
    fun a b h => commonPfx_comm_nil h
  exact (disjInvList_pairwise hd).forall hsymm he hf hne

theorem lookupA_bindingsList_eraseKey_none {α : Type} {cs : List (Key × Trie α)}
    {p : Key} {child : Trie α} {k2 : Key} (hd : disjInvList cs = true)
    (hm : (p, child) ∈ cs) (hc : commonPfx p k2 ≠ []) :
    lookupA (bindingsList (eraseKey cs p)) k2 = none := by
  have hde : disjInvList (eraseKey cs p) = true :=
    disjInvList_of_sublist (eraseKey_sublist cs p) hd
  refine lookupA_bindingsList_none hde ?_
  intro e he r hk
  have hemem : e ∈ cs := mem_eraseKey he
  have he1 : e.1 ≠ [] := (disjInvList_mem hd hemem).1
  have hce : commonPfx e.1 k2 ≠ [] := commonPfx_ne_nil_of_pre he1 _ hk
  have h2 : commonPfx e.1 p ≠ [] := commonPfx_head_trans hce hc
  have hnd := disjInvList_keys_nodup hd
  have hne := eraseKey_key_ne hnd e he
  by_cases hef : e = (p, child)
  · exact hne (congrArg Prod.fst hef)
  · exact h2 (disjInvList_disjoint_of_mem hd hemem hm hef)

theorem lookupA_bindingsList_none_unique {α : Type} {cs : List (Key × Trie α)}
    {p : Key} {child : Trie α} {k2 : Key} (hd : disjInvList cs = true)
    (hm : (p, child) ∈ cs) (hc : commonPfx p k2 ≠ []) (hnp : ∀ r : Key, k2 ≠ p ++ r) :
    lookupA (bindingsList cs) k2 = none := by
  refine lookupA_bindingsList_none hd ?_
  intro e he r hk
  have he1 : e.1 ≠ [] := (disjInvList_mem hd he).1
  have hce : commonPfx e.1 k2 ≠ [] := commonPfx_ne_nil_of_pre he1 _ hk
  by_cases hef : e = (p, child)
  · subst hef
    exact hnp r hk
  · have h2 : commonPfx e.1 p ≠ [] := commonPfx_head_trans hce hc
    exact h2 (disjInvList_disjoint_of_mem hd he hm hef)
theorem children_mk {α : Type} (c : Option α) (cs : List (Key × Trie α)) :
    (Trie.mk c cs).children = cs := rfl

theorem content_mk {α : Type} (c : Option α) (cs : List (Key × Trie α)) :
    (Trie.mk c cs).content = c := rfl

theorem compactInv_intro {α : Type} {t : Trie α}
    (h1 : t.content.isSome = true ∨ 2 ≤ t.children.length)
    (h2 : compactInvList t.children = true) : compactInv t = true := by
  obtain ⟨c, cs⟩ := t
  rw [compactInv_mk]
  rw [content_mk] at h1
  rw [children_mk] at h1 h2
  rw [Bool.and_eq_true, Bool.or_eq_true]
  refine ⟨?_, h2⟩
  rcases h1 with h | h
  · exact Or.inl h
  · exact Or.inr (by simpa using h)

theorem compactInv_elim {α : Type} {t : Trie α} (h : compactInv t = true) :
    (t.content.isSome = true ∨ 2 ≤ t.children.length) ∧
      compactInvList t.children = true := by
  obtain ⟨c, cs⟩ := t
  rw [compactInv_mk, Bool.and_eq_true, Bool.or_eq_true] at h
  rw [content_mk, children_mk]
  refine ⟨?_, h.2⟩
  rcases h.1 with h1 | h1
  · exact Or.inl h1
  · exact Or.inr (by simpa using h1)

theorem compactInv_leaf {α : Type} (v : α) : compactInv (.mk (some v) []) = true := rfl

theorem disjInv_leaf {α : Type} (v : α) : disjInv (.mk (some v) ([] : List (Key × Trie α))) = true := rfl

/-- After removing the common prefix of two keys, nothing in common
remains. -/
theorem commonPfx_drop (p k : Key) :
    commonPfx (p.drop (commonPfx p k).length) (k.drop (commonPfx p k).length) = [] := by
  induction p generalizing k with
  | nil => rw [commonPfx_nil_left]; simp [commonPfx_nil_left]
  | cons x xs ih =>
    cases k with
    | nil => rw [commonPfx_nil_right]; simp [commonPfx_nil_right]
    | cons y ys =>
      rw [commonPfx_cons_cons]
      by_cases hxy : x = y
      · rw [if_pos hxy]
        simp only [List.length_cons, List.drop_succ_cons]
        exact ih ys
      · rw [if_neg hxy]
        simp only [List.length_nil, List.drop_zero]
        rw [commonPfx_cons_cons, if_neg hxy]

theorem head_take_eq {k : Key} {l : Nat} (hl : 1 ≤ l) (hk : k ≠ []) :
    ∃ a as bs, k = a :: as ∧ k.take l = a :: bs := by
  obtain ⟨a, as, rfl⟩ := List.exists_cons_of_ne_nil hk
  obtain ⟨m, rfl⟩ := Nat.exists_eq_add_of_le hl
  exact ⟨a, as, as.take m, rfl, by simp [List.take_cons]⟩

theorem commonPfx_take_lift {e k : Key} {l : Nat} (hl : 1 ≤ l)
    (h : commonPfx e (k.take l) ≠ []) : commonPfx e k ≠ [] := by
  obtain ⟨x, xs, ys, rfl, hty⟩ := commonPfx_ne_nil_iff.mp h
  have hk : k ≠ [] := by
    intro hc; subst hc; simp at hty
  obtain ⟨a, as, bs, rfl, htake⟩ := head_take_eq hl hk
  rw [htake] at hty
  have hxa : x = a := (List.cons_eq_cons.mp hty).1.symm
  subst hxa
  exact commonPfx_ne_nil_iff.mpr ⟨x, xs, as, rfl, rfl⟩

theorem take_ne_nil_of_pos {k : Key} {l : Nat} (hl : 1 ≤ l) (hk : k ≠ []) :
    k.take l ≠ [] := by
  obtain ⟨a, as, bs, rfl, htake⟩ := head_take_eq hl hk
  rw [htake]
  simp

/-- Setting a key which shares nothing with the single child of a fresh
branch node appends a new leaf (this is the recursive call
`intersection_subtrie[rkey[length:]] = value` inside `_add_intersecting`;
it always lands in the no-overlap case because the characters right
after the intersection differ). -/
theorem setRel_fresh {α : Type} (ch : List Key) (q : Key) (child : Trie α)
    {r : Key} (hr : r ≠ []) (hq : commonPfx q r = []) (v : α) :
    setRel ch (.mk none [(q, child)]) r v =
      (.mk none [(q, child), (r, .mk (some v) [])],
       [.create (ch ++ [r]), .insert (ch ++ [r]) v]) := by
  have hnone : findBestPfx [(q, child)] r = none :=
    findBestPfx_none_of (by
      intro e he
      obtain rfl : e = (q, child) := by simpa using he
      exact hq)
  rw [setRel_case1 ch none [(q, child)] hr v hnone]
  rfl
theorem commonPfx_full_eq_right {p k : Key} (h : (commonPfx p k).length = k.length) :
    commonPfx p k = k := by
  have h1 := commonPfx_take_right p k
  rw [h, List.take_length] at h1
  exact h1.symm

/-- Structural effect of `_set_relative` on invariant-satisfying nodes:
sibling disjointness is preserved everywhere, the compaction invariant of
the children is preserved, the number of children does not shrink, and
the node's own content changes only when the relative key is empty. -/
theorem setRel_main {α : Type} : ∀ (n : Nat) (rkey : Key) (ch : List Key) (t : Trie α) (v : α),
    rkey.length ≤ n → disjInv t = true →
    disjInv (setRel ch t rkey v).1 = true ∧
    (compactInvList t.children = true → compactInvList (setRel ch t rkey v).1.children = true) ∧
    t.children.length ≤ (setRel ch t rkey v).1.children.length ∧
    (setRel ch t rkey v).1.content = (if rkey = [] then some v else t.content) := by
  intro n
  induction n with
  | zero =>
    intro rkey ch t v hn hd
    obtain rfl : rkey = [] := List.length_eq_zero.mp (Nat.le_zero.mp hn)
    obtain ⟨c, cs⟩ := t
    rw [setRel_nil]
    exact ⟨hd, fun h => h, Nat.le_refl _, rfl⟩
  | succ n ih =>
    intro rkey ch t v hn hd
    obtain ⟨c, cs⟩ := t
    cases rkey with
    | nil =>
      rw [setRel_nil]
      exact ⟨hd, fun h => h, Nat.le_refl _, rfl⟩
    | cons a as =>
      have hkne : (a :: as) ≠ [] := by simp
      rw [disjInv_mk] at hd
      cases hb : findBestPfx cs (a :: as) with
      | none =>
        rw [setRel_case1 ch c cs hkne v hb]
        refine ⟨?_, ?_, ?_, ?_⟩
        · simp only [disjInv_mk, children_mk]
          exact disjInvList_append_one hd hkne (disjInv_leaf v)
            (fun e he => findBestPfx_none hb e he)
        · intro hc
          simp only [children_mk] at hc ⊢
          exact compactInvList_append_one hc (compactInv_leaf v)
        · simp only [children_mk]
          simp
        · exact (if_neg hkne).symm
      | some best =>
        obtain ⟨p, l, child⟩ := best
        obtain ⟨hm, hcom, hlen⟩ := findBestPfx_some hb
        obtain ⟨hl1, -, hpne⟩ := findBestPfx_pos hb
        have hmd := disjInvList_mem hd hm
        have hdc : disjInv child = true := hmd.2
        have hnd := disjInvList_keys_nodup hd
        by_cases hlp : l = p.length
        · -- possibility 2: recurse into the child
          rw [setRel_case2 ch c cs v hb hlp]
          have hdrop : ((a :: as).drop l).length ≤ n := by
            simp only [List.length_drop, List.length_cons]
            simp only [List.length_cons] at hn
            omega
          obtain ⟨ihd, ihc, ihl, ihcont⟩ :=
            ih ((a :: as).drop l) (ch ++ [p]) child v hdrop hdc
          refine ⟨?_, ?_, ?_, ?_⟩
          · simp only [disjInv_mk, children_mk]
            exact disjInvList_replaceKey hd ihd
          · intro hc
            simp only [children_mk] at hc ⊢
            refine compactInvList_replaceKey hc ?_
            have hcc : compactInv child = true := (compactInvList_iff cs).mp hc _ hm
            obtain ⟨hc1, hc2⟩ := compactInv_elim hcc
            refine compactInv_intro ?_ (ihc hc2)
            by_cases hdn : (a :: as).drop l = []
            · rw [ihcont, if_pos hdn]
              exact Or.inl rfl
            · rw [ihcont, if_neg hdn]
              rcases hc1 with h1 | h1
              · exact Or.inl h1
              · exact Or.inr (Nat.le_trans h1 ihl)
          · simp only [children_mk]
            rw [replaceKey_length]
          · exact (if_neg hkne).symm
        · have hllt : l < p.length :=
            Nat.lt_of_le_of_ne (hlen ▸ commonPfx_length_le_left p (a :: as)) hlp
          have hdropp : p.drop l ≠ [] := by
            intro hcd
            have := List.drop_eq_nil_iff.mp hcd
            omega
          have herase : ∀ e ∈ eraseKey cs p, commonPfx e.1 (a :: as) = [] := by
            intro e he
            by_contra hce
            have huniq := findBestPfx_unique hd hb e (mem_eraseKey he) hce
            exact (eraseKey_key_ne hnd e he) (congrArg Prod.fst huniq)
          have hderase : disjInvList (eraseKey cs p) = true :=
            disjInvList_of_sublist (eraseKey_sublist cs p) hd
          have hlenerase : (eraseKey cs p).length + 1 = cs.length :=
            eraseKey_length_of_mem hm
          by_cases hlr : l = (a :: as).length
          · -- possibility 3: the key sits above the child
            rw [setRel_case3 ch c cs v hb hlp hlr]
            have hnode : disjInv (Trie.mk (some v) [(p.drop l, child)]) = true := by
              rw [disjInv_mk]
              exact (disjInvList_cons _ _ _).mpr ⟨hdropp, by simp, hdc, disjInvList_nil⟩
            refine ⟨?_, ?_, ?_, ?_⟩
            · simp only [disjInv_mk, children_mk]
              exact disjInvList_append_one hderase hkne hnode herase
            · intro hc
              simp only [children_mk] at hc ⊢
              refine compactInvList_append_one
                (compactInvList_of_sublist (eraseKey_sublist cs p) hc) ?_
              refine compactInv_intro (Or.inl rfl) ?_
              simp only [children_mk]
              rw [compactInvList_iff]
              intro e he
              obtain rfl : e = (p.drop l, child) := by simpa using he
              exact (compactInvList_iff cs).mp hc (p, child) hm
            · simp only [children_mk]
              rw [List.length_append]
              simp only [List.length_cons, List.length_nil]
              omega
            · exact (if_neg hkne).symm
          · -- possibility 4: branch at the intersection
            have hllr : l < (a :: as).length :=
              Nat.lt_of_le_of_ne (hlen ▸ commonPfx_length_le_right p (a :: as)) hlr
            have hdropr : (a :: as).drop l ≠ [] := by
              intro hcd
              have := List.drop_eq_nil_iff.mp hcd
              omega
            have hdisjdrop : commonPfx (p.drop l) ((a :: as).drop l) = [] := by
              have := commonPfx_drop p (a :: as)
              rw [← hlen] at this
              exact this
            rw [setRel_case4 ch c cs v hb hlp hlr]
            rw [setRel_fresh _ _ _ hdropr hdisjdrop v]
            have htakene : (a :: as).take l ≠ [] := take_ne_nil_of_pos hl1 hkne
            have hinter : ∀ e ∈ eraseKey cs p, commonPfx e.1 ((a :: as).take l) = [] := by
              intro e he
              by_contra hce
              exact absurd (commonPfx_take_lift hl1 hce) (by rw [herase e he]; simp)
            have hnode4 : disjInv
                (Trie.mk (none : Option α)
                  [(p.drop l, child), ((a :: as).drop l, Trie.mk (some v) [])]) = true := by
              rw [disjInv_mk]
              refine (disjInvList_cons _ _ _).mpr ⟨hdropp, ?_, hdc, ?_⟩
              · intro e he
                obtain rfl : e = ((a :: as).drop l, Trie.mk (some v) []) := by simpa using he
                exact hdisjdrop
              · exact (disjInvList_cons _ _ _).mpr
                  ⟨hdropr, by simp, disjInv_leaf v, disjInvList_nil⟩
            refine ⟨?_, ?_, ?_, ?_⟩
            · simp only [disjInv_mk, children_mk]
              exact disjInvList_append_one hderase htakene hnode4 hinter
            · intro hc
              simp only [children_mk] at hc ⊢
              refine compactInvList_append_one
                (compactInvList_of_sublist (eraseKey_sublist cs p) hc) ?_
              refine compactInv_intro (Or.inr (by simp [children_mk])) ?_
              simp only [children_mk]
              rw [compactInvList_iff]
              intro e he
              rcases List.mem_cons.mp he with rfl | he2
              · exact (compactInvList_iff cs).mp hc (p, child) hm
              · obtain rfl : e = ((a :: as).drop l, Trie.mk (some v) []) := by simpa using he2
                exact compactInv_leaf v
            · simp only [children_mk]
              rw [List.length_append]
              simp only [List.length_cons, List.length_nil]
              omega
            · exact (if_neg hkne).symm
theorem lookupA_bindings_ne_nil {α : Type} (c : Option α) (cs : List (Key × Trie α))
    {k : Key} (hk : k ≠ []) :
    lookupA (bindings (Trie.mk c cs)) k = lookupA (bindingsList cs) k := by
  cases k with
  | nil => exact absurd rfl hk
  | cons a as => exact lookupA_bindings_cons c cs a as

theorem lookupA_bindings_nil {α : Type} {c : Option α} {cs : List (Key × Trie α)}
    (hd : disjInvList cs = true) :
    lookupA (bindings (Trie.mk c cs)) [] = c := by
  have hnone : lookupA (bindingsList cs) [] = none := by
    refine lookupA_bindingsList_none hd ?_
    intro e he r hc
    exact (disjInvList_mem hd he).1 (List.append_eq_nil.mp hc.symm).1
  cases c with
  | none => rw [bindings_mk_none, hnone]
  | some w => rw [bindings_mk_some]; rfl

theorem bindings_map_comp {α : Type} (bs : List (Key × α)) (q r : Key) :
    (bs.map (fun b => (q ++ b.1, b.2))).map (fun b => (r ++ b.1, b.2)) =
      bs.map (fun b => ((r ++ q) ++ b.1, b.2)) := by
  rw [List.map_map]
  apply List.map_congr_left
  intro b hb
  simp [List.append_assoc]

theorem key_split_best_full {α : Type} {cs : List (Key × Trie α)} {k p : Key}
    {l : Nat} {child : Trie α} (hb : findBestPfx cs k = some (p, l, child))
    (hl : l = p.length) : k = p ++ k.drop l := by
  obtain ⟨-, -, hlen⟩ := findBestPfx_some hb
  have hcp : commonPfx p k = p := commonPfx_full_eq (by rw [← hlen, hl])
  have htake : k.take l = p := by
    have h2 := commonPfx_take_right p k
    rw [hcp] at h2
    rw [hlen, hcp]
    exact h2
  conv_lhs => rw [← List.take_append_drop l k]
  rw [htake]

theorem key_split_best_right {α : Type} {cs : List (Key × Trie α)} {k p : Key}
    {l : Nat} {child : Trie α} (hb : findBestPfx cs k = some (p, l, child))
    (hl : l = k.length) : p = k ++ p.drop l := by
  obtain ⟨-, -, hlen⟩ := findBestPfx_some hb
  have hcp : commonPfx p k = k := commonPfx_full_eq_right (by rw [← hlen, hl])
  have htake : p.take l = k := by
    have h2 := commonPfx_take_left p k
    rw [hcp] at h2
    rw [hlen, hcp]
    exact h2
  conv_lhs => rw [← List.take_append_drop l p]
  rw [htake]

theorem key_take_eq_of_best {α : Type} {cs : List (Key × Trie α)} {k p : Key}
    {l : Nat} {child : Trie α} (hb : findBestPfx cs k = some (p, l, child)) :
    p.take l = k.take l := by
  obtain ⟨-, -, hlen⟩ := findBestPfx_some hb
  rw [hlen, commonPfx_take_left, commonPfx_take_right]
/-- Functional effect of `_set_relative` on the stored mapping: the given
relative key now maps to `v`, every other key is untouched. -/
theorem setRel_bindings {α : Type} : ∀ (n : Nat) (rkey : Key) (ch : List Key) (t : Trie α) (v : α),
    rkey.length ≤ n → disjInv t = true → ∀ k2 : Key,
    lookupA (bindings (setRel ch t rkey v).1) k2 =
      (if k2 = rkey then some v else lookupA (bindings t) k2) := by
  intro n
  induction n with
  | zero =>
    intro rkey ch t v hn hd k2
    obtain rfl : rkey = [] := List.length_eq_zero.mp (Nat.le_zero.mp hn)
    obtain ⟨c, cs⟩ := t
    rw [setRel_nil]
    cases k2 with
    | nil => rw [if_pos rfl, bindings_mk_some]; rfl
    | cons b bs =>
      rw [if_neg (by simp), lookupA_bindings_cons, lookupA_bindings_cons]
  | succ n ih =>
    intro rkey ch t v hn hd k2
    obtain ⟨c, cs⟩ := t
    rw [disjInv_mk] at hd
    cases rkey with
    | nil =>
      rw [setRel_nil]
      cases k2 with
      | nil => rw [if_pos rfl, bindings_mk_some]; rfl
      | cons b bs =>
        rw [if_neg (by simp), lookupA_bindings_cons, lookupA_bindings_cons]
    | cons a as =>
      have hkne : (a :: as) ≠ [] := by simp
      cases hb : findBestPfx cs (a :: as) with
      | none =>
        rw [setRel_case1 ch c cs hkne v hb]
        have hd2 : disjInvList (cs ++ [(a :: as, Trie.mk (some v) [])]) = true :=
          disjInvList_append_one hd hkne (disjInv_leaf v)
            (fun e he => findBestPfx_none hb e he)
        have hnotpre : ∀ e ∈ cs, ∀ r : Key, (a :: as) ≠ e.1 ++ r := by
          intro e he r hc
          exact (commonPfx_ne_nil_of_pre (disjInvList_mem hd he).1 _ hc)
            (findBestPfx_none hb e he)
        cases k2 with
        | nil =>
          rw [if_neg (by simp), lookupA_bindings_nil hd2, lookupA_bindings_nil hd]
        | cons b bs =>
          rw [lookupA_bindings_cons, lookupA_bindings_cons, bindingsList_append]
          have hbl : bindingsList [((a :: as), Trie.mk (some v) ([] : List (Key × Trie α)))]
              = [((a :: as), v)] := by
            rw [bindingsList_cons, bindingsList_nil, bindings_mk_some, bindingsList_nil]
            simp
          rw [hbl, lookupA_append]
          cases hw : lookupA (bindingsList cs) (b :: bs) with
          | some w =>
            have hne : (b :: bs) ≠ (a :: as) := by
              intro hc
              rw [hc, lookupA_bindingsList_none hd hnotpre] at hw
              exact absurd hw (by simp)
            rw [if_neg hne]
          | none =>
            show lookupA [((a :: as), v)] (b :: bs) = _
            by_cases he : (a :: as) = (b :: bs)
            · rw [lookupA, if_pos he, if_pos he.symm]
            · rw [lookupA, if_neg he, if_neg (fun hc => he hc.symm), lookupA]
      | some best =>
        obtain ⟨p, l, child⟩ := best
        obtain ⟨hm, hcom, hlen⟩ := findBestPfx_some hb
        obtain ⟨hl1, -, hpne⟩ := findBestPfx_pos hb
        have hdc : disjInv child = true := (disjInvList_mem hd hm).2
        have hnd := disjInvList_keys_nodup hd
        have hdrop : ((a :: as).drop l).length ≤ n := by
          simp only [List.length_drop, List.length_cons]
          simp only [List.length_cons] at hn
          omega
        by_cases hlp : l = p.length
        · -- possibility 2: the update happens inside the matching child
          rw [setRel_case2 ch c cs v hb hlp]
          have hchild2d : disjInv (setRel (ch ++ [p]) child ((a :: as).drop l) v).1 = true :=
            (setRel_main n _ _ child v hdrop hdc).1
          have hd2 : disjInvList
              (replaceKey cs p (setRel (ch ++ [p]) child ((a :: as).drop l) v).1) = true :=
            disjInvList_replaceKey hd hchild2d
          have hsplit : (a :: as) = p ++ (a :: as).drop l := key_split_best_full hb hlp
          cases k2 with
          | nil =>
            rw [if_neg (by simp), lookupA_bindings_nil hd2, lookupA_bindings_nil hd]
          | cons b bs =>
            rw [lookupA_bindings_cons, lookupA_bindings_cons]
            by_cases hex : ∃ e, e ∈ cs ∧ ∃ r : Key, (b :: bs) = e.1 ++ r
            · obtain ⟨e, he, r, hr⟩ := hex
              by_cases hep : e.1 = p
              · obtain rfl : e = (p, child) := entry_eq_of_key_eq hnd hm he hep
                rw [hr]
                rw [lookupA_bindingsList_pre hd2 (mem_replaceKey_self hm _) r]
                rw [lookupA_bindingsList_pre hd hm r]
                rw [ih ((a :: as).drop l) (ch ++ [p]) child v hdrop hdc r]
                have hiff : (p ++ r = (a :: as)) ↔ r = (a :: as).drop l := by
                  constructor
                  · intro h2
                    conv_rhs at h2 => rw [hsplit]
                    exact List.append_cancel_left h2
                  · intro h2
                    rw [h2, ← hsplit]
                by_cases hr2 : r = (a :: as).drop l
                · rw [if_pos hr2, if_pos (hiff.mpr hr2)]
                · rw [if_neg hr2, if_neg (fun h2 => hr2 (hiff.mp h2))]
              · obtain ⟨e1, e2⟩ := e
                have he1 : e1 ≠ [] := (disjInvList_mem hd he).1
                have he3 : (e1, e2) ∈ replaceKey cs p
                    (setRel (ch ++ [p]) child ((a :: as).drop l) v).1 :=
                  mem_replaceKey_of_ne he hep _
                rw [hr]
                rw [lookupA_bindingsList_pre hd2 he3 r, lookupA_bindingsList_pre hd he r]
                have hne : e1 ++ r ≠ (a :: as) := by
                  intro h2
                  apply hep
                  have huniq := findBestPfx_unique hd hb (e1, e2) he
                    (commonPfx_ne_nil_of_pre he1 _ h2.symm)
                  exact congrArg Prod.fst huniq
                rw [if_neg hne]
            · have hne : (b :: bs) ≠ (a :: as) := by
                intro h2
                exact hex ⟨(p, child), hm, (a :: as).drop l, by rw [h2]; exact hsplit⟩
              have hnone1 : ∀ f ∈ replaceKey cs p
                  (setRel (ch ++ [p]) child ((a :: as).drop l) v).1,
                  ∀ r : Key, (b :: bs) ≠ f.1 ++ r := by
                intro f hf r hc
                rcases mem_replaceKey hf with hf2 | rfl
                · exact hex ⟨f, hf2, r, hc⟩
                · exact hex ⟨(p, child), hm, r, hc⟩
              rw [if_neg hne, lookupA_bindingsList_none hd2 hnone1,
                lookupA_bindingsList_none hd (fun f hf r hc => hex ⟨f, hf, r, hc⟩)]
        · have hllt : l < p.length :=
            Nat.lt_of_le_of_ne (hlen ▸ commonPfx_length_le_left p (a :: as)) hlp
          have hdropp : p.drop l ≠ [] := by
            intro hcd
            have := List.drop_eq_nil_iff.mp hcd
            omega
          have herase : ∀ e ∈ eraseKey cs p, commonPfx e.1 (a :: as) = [] := by
            intro e he
            by_contra hce
            have huniq := findBestPfx_unique hd hb e (mem_eraseKey he) hce
            exact (eraseKey_key_ne hnd e he) (congrArg Prod.fst huniq)
          have hderase : disjInvList (eraseKey cs p) = true :=
            disjInvList_of_sublist (eraseKey_sublist cs p) hd
          have heraseno : ∀ {k2 : Key}, (∀ e ∈ cs, ∀ r : Key, k2 ≠ e.1 ++ r) →
              lookupA (bindingsList (eraseKey cs p)) k2 = none := by
            intro k2 hno
            exact lookupA_bindingsList_none hderase
              (fun e he r hc => hno e (mem_eraseKey he) r hc)
          by_cases hlr : l = (a :: as).length
          · -- possibility 3: new node over the existing child
            rw [setRel_case3 ch c cs v hb hlp hlr]
            have hnode : disjInv (Trie.mk (some v) [(p.drop l, child)]) = true := by
              rw [disjInv_mk]
              exact (disjInvList_cons _ _ _).mpr ⟨hdropp, by simp, hdc, disjInvList_nil⟩
            have hd2 : disjInvList
                (eraseKey cs p ++ [(a :: as, Trie.mk (some v) [(p.drop l, child)])]) = true :=
              disjInvList_append_one hderase hkne hnode herase
            have hpsplit : p = (a :: as) ++ p.drop l := key_split_best_right hb hlr
            have hbl : bindingsList [((a :: as), Trie.mk (some v) [(p.drop l, child)])] =
                ((a :: as), v) :: (bindings child).map (fun b => (p ++ b.1, b.2)) := by
              rw [bindingsList_cons, bindingsList_nil, List.append_nil, bindings_mk_some,
                bindingsList_cons, bindingsList_nil, List.append_nil, List.map_cons,
                bindings_map_comp]
              conv_rhs => rw [hpsplit]
              simp
            cases k2 with
            | nil =>
              rw [if_neg (by simp), lookupA_bindings_nil hd2, lookupA_bindings_nil hd]
            | cons b bs =>
              rw [lookupA_bindings_cons, lookupA_bindings_cons]
              by_cases hk2 : (b :: bs) = (a :: as)
              · rw [hk2]
                rw [bindingsList_append, hbl, lookupA_append]
                rw [lookupA_bindingsList_eraseKey_none hd hm hcom]
                rw [if_pos rfl]
                show lookupA (((a :: as), v) :: _) (a :: as) = some v
                rw [lookupA, if_pos rfl]
              · by_cases hex : ∃ e, e ∈ cs ∧ ∃ r : Key, (b :: bs) = e.1 ++ r
                · obtain ⟨e, he, r, hr⟩ := hex
                  by_cases hep : e.1 = p
                  · obtain rfl : e = (p, child) := entry_eq_of_key_eq hnd hm he hep
                    rw [hr, bindingsList_append, hbl, lookupA_append]
                    rw [lookupA_bindingsList_eraseKey_none hd hm
                      (commonPfx_ne_nil_of_pre hpne _ rfl)]
                    have hfne : (a :: as) ≠ p ++ r := by
                      intro h2
                      have h3 := congrArg List.length h2
                      rw [List.length_append] at h3
                      omega
                    show lookupA (((a :: as), v) :: _) (p ++ r) = _
                    rw [lookupA, if_neg hfne, lookupA_map_pre]
                    rw [lookupA_bindingsList_pre hd hm r]
                    rw [if_neg (fun h2 => hfne h2.symm)]
                  · obtain ⟨e1, e2⟩ := e
                    have he1 : e1 ≠ [] := (disjInvList_mem hd he).1
                    have he3 : (e1, e2) ∈ eraseKey cs p ++
                        [(a :: as, Trie.mk (some v) [(p.drop l, child)])] :=
                      List.mem_append_left _ (mem_eraseKey_of_ne he hep)
                    rw [hr]
                    rw [lookupA_bindingsList_pre hd2 he3 r, lookupA_bindingsList_pre hd he r]
                    have hne : e1 ++ r ≠ (a :: as) := by
                      intro h2
                      apply hep
                      have huniq := findBestPfx_unique hd hb (e1, e2) he
                        (commonPfx_ne_nil_of_pre he1 _ h2.symm)
                      exact congrArg Prod.fst huniq
                    rw [if_neg hne]
                · rw [bindingsList_append, hbl, lookupA_append]
                  rw [heraseno (fun f hf r hc => hex ⟨f, hf, r, hc⟩)]
                  show lookupA (((a :: as), v) :: _) (b :: bs) = _
                  rw [lookupA, if_neg (fun h2 => hk2 h2.symm)]
                  rw [lookupA_map_pre_none _ _ _ (fun r hc => hex ⟨(p, child), hm, r, hc⟩)]
                  rw [if_neg hk2, lookupA_bindingsList_none hd
                    (fun f hf r hc => hex ⟨f, hf, r, hc⟩)]
          · -- possibility 4: branch node at the intersection
            have hllr : l < (a :: as).length :=
              Nat.lt_of_le_of_ne (hlen ▸ commonPfx_length_le_right p (a :: as)) hlr
            have hdropr : (a :: as).drop l ≠ [] := by
              intro hcd
              have := List.drop_eq_nil_iff.mp hcd
              omega
            have hdisjdrop : commonPfx (p.drop l) ((a :: as).drop l) = [] := by
              have := commonPfx_drop p (a :: as)
              rw [← hlen] at this
              exact this
            rw [setRel_case4 ch c cs v hb hlp hlr]
            have hfresh1 : (setRel (ch ++ [(a :: as).take l])
                (Trie.mk (none : Option α) [(p.drop l, child)]) ((a :: as).drop l) v).1 =
                Trie.mk (none : Option α)
                  [(p.drop l, child), ((a :: as).drop l, Trie.mk (some v) [])] := by
              rw [setRel_fresh _ _ _ hdropr hdisjdrop v]
            rw [hfresh1]
            have htakene : (a :: as).take l ≠ [] := take_ne_nil_of_pos hl1 hkne
            have hinter : ∀ e ∈ eraseKey cs p, commonPfx e.1 ((a :: as).take l) = [] := by
              intro e he
              by_contra hce
              exact absurd (commonPfx_take_lift hl1 hce) (by rw [herase e he]; simp)
            have hnode4 : disjInv
                (Trie.mk (none : Option α)
                  [(p.drop l, child), ((a :: as).drop l, Trie.mk (some v) [])]) = true := by
              rw [disjInv_mk]
              refine (disjInvList_cons _ _ _).mpr ⟨hdropp, ?_, hdc, ?_⟩
              · intro e he
                obtain rfl : e = ((a :: as).drop l, Trie.mk (some v) []) := by simpa using he
                exact hdisjdrop
              · exact (disjInvList_cons _ _ _).mpr
                  ⟨hdropr, by simp, disjInv_leaf v, disjInvList_nil⟩
            have hd2 : disjInvList (eraseKey cs p ++
                [((a :: as).take l,
                  Trie.mk (none : Option α)
                    [(p.drop l, child), ((a :: as).drop l, Trie.mk (some v) [])])]) = true :=
              disjInvList_append_one hderase htakene hnode4 hinter
            have hpsplit : p = (a :: as).take l ++ p.drop l := by
              conv_lhs => rw [← List.take_append_drop l p]
              rw [key_take_eq_of_best hb]
            have hksplit : (a :: as) = (a :: as).take l ++ (a :: as).drop l :=
              (List.take_append_drop l (a :: as)).symm
            have hnpre : ∀ r : Key, (a :: as) ≠ p ++ r := by
              intro r h2
              apply hlp
              have : commonPfx p (a :: as) = p := by
                rw [h2, commonPfx_append]
              rw [hlen, this]
            have hbl : bindingsList [((a :: as).take l,
                Trie.mk (none : Option α)
                  [(p.drop l, child), ((a :: as).drop l, Trie.mk (some v) [])])] =
                (bindings child).map (fun b => (p ++ b.1, b.2)) ++ [((a :: as), v)] := by
              rw [bindingsList_cons, bindingsList_nil, List.append_nil, bindings_mk_none,
                bindingsList_cons, bindingsList_cons, bindingsList_nil, List.append_nil,
                bindings_mk_some, bindingsList_nil, List.map_append, bindings_map_comp,
                bindings_map_comp]
              conv_rhs => rw [hpsplit, hksplit]
              simp
            cases k2 with
            | nil =>
              rw [if_neg (by simp), lookupA_bindings_nil hd2, lookupA_bindings_nil hd]
            | cons b bs =>
              rw [lookupA_bindings_cons, lookupA_bindings_cons]
              by_cases hk2 : (b :: bs) = (a :: as)
              · rw [hk2]
                rw [bindingsList_append, hbl, lookupA_append]
                rw [lookupA_bindingsList_eraseKey_none hd hm hcom]
                rw [lookupA_append]
                rw [lookupA_map_pre_none _ _ _ hnpre]
                rw [if_pos rfl]
                show lookupA [((a :: as), v)] (a :: as) = some v
                rw [lookupA, if_pos rfl]
              · by_cases hex : ∃ e, e ∈ cs ∧ ∃ r : Key, (b :: bs) = e.1 ++ r
                · obtain ⟨e, he, r, hr⟩ := hex
                  by_cases hep : e.1 = p
                  · obtain rfl : e = (p, child) := entry_eq_of_key_eq hnd hm he hep
                    rw [hr, bindingsList_append, hbl, lookupA_append]
                    rw [lookupA_bindingsList_eraseKey_none hd hm
                      (commonPfx_ne_nil_of_pre hpne _ rfl)]
                    rw [lookupA_append, lookupA_map_pre]
                    rw [lookupA_bindingsList_pre hd hm r]
                    have hne : p ++ r ≠ (a :: as) := fun h2 => hnpre r h2.symm
                    rw [if_neg hne]
                    cases hw : lookupA (bindings child) r with
                    | some w => rfl
                    | none =>
                      show lookupA [((a :: as), v)] (p ++ r) = none
                      rw [lookupA, if_neg (fun h2 => hne h2.symm), lookupA]
                  · obtain ⟨e1, e2⟩ := e
                    have he1 : e1 ≠ [] := (disjInvList_mem hd he).1
                    have he3 : (e1, e2) ∈ eraseKey cs p ++
                        [((a :: as).take l,
                          Trie.mk (none : Option α)
                            [(p.drop l, child), ((a :: as).drop l, Trie.mk (some v) [])])] :=
                      List.mem_append_left _ (mem_eraseKey_of_ne he hep)
                    rw [hr]
                    rw [lookupA_bindingsList_pre hd2 he3 r, lookupA_bindingsList_pre hd he r]
                    have hne : e1 ++ r ≠ (a :: as) := by
                      intro h2
                      apply hep
                      have huniq := findBestPfx_unique hd hb (e1, e2) he
                        (commonPfx_ne_nil_of_pre he1 _ h2.symm)
                      exact congrArg Prod.fst huniq
                    rw [if_neg hne]
                · rw [bindingsList_append, hbl, lookupA_append]
                  rw [heraseno (fun f hf r hc => hex ⟨f, hf, r, hc⟩)]
                  rw [lookupA_append]
                  rw [lookupA_map_pre_none _ _ _ (fun r hc => hex ⟨(p, child), hm, r, hc⟩)]
                  show lookupA [((a :: as), v)] (b :: bs) = _
                  rw [lookupA, if_neg (fun h2 => hk2 h2.symm)]
                  rw [if_neg hk2, lookupA_bindingsList_none hd
                    (fun f hf r hc => hex ⟨f, hf, r, hc⟩), lookupA]
/-- Size effect of `_set_relative`: no node is ever removed during an
insertion, so `__len__` never decreases. -/
theorem setRel_size {α : Type} : ∀ (n : Nat) (rkey : Key) (ch : List Key) (t : Trie α) (v : α),
    rkey.length ≤ n → disjInv t = true →
    t.size ≤ (setRel ch t rkey v).1.size := by
  intro n
  induction n with
  | zero =>
    intro rkey ch t v hn hd
    obtain rfl : rkey = [] := List.length_eq_zero.mp (Nat.le_zero.mp hn)
    obtain ⟨c, cs⟩ := t
    rw [setRel_nil, size_mk, size_mk]
  | succ n ih =>
    intro rkey ch t v hn hd
    obtain ⟨c, cs⟩ := t
    rw [disjInv_mk] at hd
    cases rkey with
    | nil => rw [setRel_nil, size_mk, size_mk]
    | cons a as =>
      have hkne : (a :: as) ≠ [] := by simp
      cases hb : findBestPfx cs (a :: as) with
      | none =>
        rw [setRel_case1 ch c cs hkne v hb, size_mk, size_mk, sizeList_append,
          sizeList_cons, sizeList_nil, size_mk, sizeList_nil]
        omega
      | some best =>
        obtain ⟨p, l, child⟩ := best
        obtain ⟨hm, hcom, hlen⟩ := findBestPfx_some hb
        obtain ⟨hl1, -, hpne⟩ := findBestPfx_pos hb
        have hdc : disjInv child = true := (disjInvList_mem hd hm).2
        have hnd := disjInvList_keys_nodup hd
        have hdrop : ((a :: as).drop l).length ≤ n := by
          simp only [List.length_drop, List.length_cons]
          simp only [List.length_cons] at hn
          omega
        have herasesz : Trie.sizeList cs = Trie.sizeList (eraseKey cs p) + child.size :=
          sizeList_eraseKey_add hm hnd
        by_cases hlp : l = p.length
        · rw [setRel_case2 ch c cs v hb hlp, size_mk, size_mk]
          have hrep := sizeList_replaceKey hm hnd (setRel (ch ++ [p]) child ((a :: as).drop l) v).1
          have hch := ih ((a :: as).drop l) (ch ++ [p]) child v hdrop hdc
          omega
        · by_cases hlr : l = (a :: as).length
          · rw [setRel_case3 ch c cs v hb hlp hlr, size_mk, size_mk, sizeList_append,
              sizeList_cons, sizeList_nil, size_mk, sizeList_cons, sizeList_nil]
            omega
          · have hllr : l < (a :: as).length :=
              Nat.lt_of_le_of_ne (hlen ▸ commonPfx_length_le_right p (a :: as)) hlr
            have hdropr : (a :: as).drop l ≠ [] := by
              intro hcd
              have := List.drop_eq_nil_iff.mp hcd
              omega
            have hdisjdrop : commonPfx (p.drop l) ((a :: as).drop l) = [] := by
              have := commonPfx_drop p (a :: as)
              rw [← hlen] at this
              exact this
            rw [setRel_case4 ch c cs v hb hlp hlr]
            have hfresh1 : (setRel (ch ++ [(a :: as).take l])
                (Trie.mk (none : Option α) [(p.drop l, child)]) ((a :: as).drop l) v).1 =
                Trie.mk (none : Option α)
                  [(p.drop l, child), ((a :: as).drop l, Trie.mk (some v) [])] := by
              rw [setRel_fresh _ _ _ hdropr hdisjdrop v]
            rw [hfresh1, size_mk, size_mk, sizeList_append, sizeList_cons, sizeList_nil,
              size_mk, sizeList_cons, sizeList_cons, sizeList_nil, size_mk, sizeList_nil]
            omega
theorem compact_some {α : Type} (pch : List Key) (suffix : Key) (v : α)
    (cs : List (Key × Trie α)) :
    compact pch suffix (.mk (some v) cs) = (.keep (.mk (some v) cs), []) := rfl

theorem compact_root {α : Type} (pch : List Key) (c : Option α) (cs : List (Key × Trie α)) :
    compact pch [] (.mk c cs) = (.keep (.mk c cs), []) := by
  cases c with
  | some v => rfl
  | none => rfl

theorem compact_none_nil {α : Type} (pch : List Key) {suffix : Key} (hs : suffix ≠ []) :
    compact pch suffix (.mk (none : Option α) []) =
      (.remove, [.remove (pch ++ [suffix])]) := by
  rw [compact, if_neg hs]

theorem compact_none_one {α : Type} (pch : List Key) {suffix : Key} (hs : suffix ≠ [])
    (s : Key) (gc : Trie α) :
    compact pch suffix (.mk (none : Option α) [(s, gc)]) =
      (.merged (suffix ++ s) gc,
       [.move (pch ++ [suffix]) s pch (suffix ++ s), .remove (pch ++ [suffix])]) := by
  rw [compact, if_neg hs]

theorem compact_none_big {α : Type} (pch : List Key) {suffix : Key} (hs : suffix ≠ [])
    {cs : List (Key × Trie α)} (h2 : 2 ≤ cs.length) :
    compact pch suffix (.mk (none : Option α) cs) = (.keep (.mk none cs), []) := by
  match cs, h2 with
  | e1 :: e2 :: rest, _ =>
    rw [compact, if_neg hs]
    · simp
    · simp

/-- The mapping contributed to the parent by the outcome of a deletion
in the subtree that was registered under `suffix`: a kept subtree stays
mounted at `suffix`, a removed one contributes nothing, a merged one is
mounted at the combined suffix. -/
def mountB {α : Type} (suffix : Key) : DelRes α → List (Key × α)
  | .keep t2 => (bindings t2).map (fun b => (suffix ++ b.1, b.2))
  | .remove => []
  | .merged s2 gc => (bindings gc).map (fun b => (s2 ++ b.1, b.2))

theorem map_mount_nil {α : Type} (bs : List (Key × α)) :
    bs.map (fun b => (([] : Key) ++ b.1, b.2)) = bs := by
  have : (fun b : Key × α => (([] : Key) ++ b.1, b.2)) = id := by
    funext b
    rfl
  rw [this, List.map_id]

/-- Compaction never changes the mapping: the bindings mounted at the
node's suffix are the same before and after `_compact`. -/
theorem compact_mount {α : Type} (pch : List Key) (suffix : Key) (c : Option α)
    (cs : List (Key × Trie α)) :
    mountB suffix (compact pch suffix (.mk c cs)).1 =
      (bindings (.mk c cs)).map (fun b => (suffix ++ b.1, b.2)) := by
  cases c with
  | some v => rw [compact_some]; rfl
  | none =>
    by_cases hs : suffix = []
    · subst hs
      rw [compact_root]
      rfl
    · match cs with
      | [] =>
        rw [compact_none_nil pch hs]
        rfl
      | [(s, gc)] =>
        rw [compact_none_one pch hs s gc]
        show (bindings gc).map (fun b => ((suffix ++ s) ++ b.1, b.2)) = _
        rw [bindings_mk_none, bindingsList_cons, bindingsList_nil, List.append_nil]
        rw [bindings_map_comp]
      | e1 :: e2 :: rest =>
        rw [compact_none_big pch hs (by simp)]
        rfl

/-- Compaction emits only move and remove events, never a delete. -/
def isDeleteEvent {α : Type} : Event α → Bool
  | .delete _ _ => true
  | _ => false

theorem compact_no_delete {α : Type} (pch : List Key) (suffix : Key) (t : Trie α) :
    ((compact pch suffix t).2.filter isDeleteEvent) = [] := by
  obtain ⟨c, cs⟩ := t
  cases c with
  | some v => rw [compact_some]; rfl
  | none =>
    by_cases hs : suffix = []
    · subst hs
      rw [compact_root]
      rfl
    · match cs with
      | [] => rw [compact_none_nil pch hs]; rfl
      | [(s, gc)] => rw [compact_none_one pch hs s gc]; rfl
      | e1 :: e2 :: rest => rw [compact_none_big pch hs (by simp)]; rfl
theorem lookup_none_of_containing_err {α : Type} {cs : List (Key × Trie α)}
    {a : Char} {as : Key} (hd : disjInvList cs = true) {e : String}
    (hfc : findContainingPfx cs (a :: as) = .error e) :
    lookupA (bindingsList cs) (a :: as) = none := by
  refine lookupA_bindingsList_none hd ?_
  intro f hf r hc
  have hf1 : f.1 ≠ [] := (disjInvList_mem hd hf).1
  have hcne : commonPfx f.1 (a :: as) ≠ [] := commonPfx_ne_nil_of_pre hf1 _ hc
  cases hb : findBestPfx cs (a :: as) with
  | none => exact hcne (findBestPfx_none hb f hf)
  | some best =>
    obtain ⟨p, l, child⟩ := best
    have hne : ¬ l = p.length := findContainingPfx_err_best hb hfc
    have hfeq := findBestPfx_unique hd hb f hf hcne
    obtain ⟨-, -, hlen⟩ := findBestPfx_some hb
    apply hne
    have hp1 : f.1 = p := congrArg Prod.fst hfeq
    rw [hlen, ← hp1, hc, commonPfx_append]

/-- `_del_relative` fails exactly when the key has no binding: the same
traversal as `_get_relative`. -/
theorem delRel_error_iff {α : Type} : ∀ (n : Nat) (rkey : Key) (pch : List Key) (suffix : Key) (t : Trie α),
    rkey.length ≤ n → disjInv t = true →
    ((∃ e, delRel pch suffix t rkey = .error e) ↔
      lookupA (bindings t) rkey = none) := by
  intro n
  induction n with
  | zero =>
    intro rkey pch suffix t hn hd
    obtain rfl : rkey = [] := List.length_eq_zero.mp (Nat.le_zero.mp hn)
    obtain ⟨c, cs⟩ := t
    rw [disjInv_mk] at hd
    rw [lookupA_bindings_nil hd]
    cases c with
    | none =>
      rw [delRel_nil_none]
      simp
    | some v =>
      rw [delRel_nil_some]
      simp
  | succ n ih =>
    intro rkey pch suffix t hn hd
    obtain ⟨c, cs⟩ := t
    rw [disjInv_mk] at hd
    cases rkey with
    | nil =>
      rw [lookupA_bindings_nil hd]
      cases c with
      | none =>
        rw [delRel_nil_none]
        simp
      | some v =>
        rw [delRel_nil_some]
        simp
    | cons a as =>
      rw [lookupA_bindings_cons]
      cases hfc : findContainingPfx cs (a :: as) with
      | error e =>
        rw [delRel_err pch suffix c cs (by simp) hfc]
        rw [lookup_none_of_containing_err hd hfc]
        simp
      | ok found =>
        obtain ⟨p, l, child⟩ := found
        obtain ⟨hsplit, hm, hl⟩ := key_split_of_containing hfc
        have hdc : disjInv child = true := (disjInvList_mem hd hm).2
        have hlen2 : ((a :: as).drop l).length ≤ n := by
          obtain ⟨hpos, -⟩ := findContainingPfx_pos hfc
          simp only [List.length_drop, List.length_cons]
          simp only [List.length_cons] at hn
          omega
        rw [delRel_step pch suffix c cs hfc]
        have hrhs : lookupA (bindingsList cs) (a :: as) =
            lookupA (bindings child) ((a :: as).drop l) := by
          conv_lhs => rw [hsplit]
          exact lookupA_bindingsList_pre hd hm _
        rw [hrhs, ← ih ((a :: as).drop l) (pch ++ [suffix]) p child hlen2 hdc]
        cases hsub : delRel (pch ++ [suffix]) p child ((a :: as).drop l) with
        | error e => simp
        | ok r =>
          obtain ⟨res, evs⟩ := r
          cases res with
          | keep t2 => simp
          | remove => simp
          | merged s2 gc => simp
/-- Invariant effects of `_compact` on a node whose children satisfy the
invariants: a kept node satisfies them (and, off the root, the
at-least-two-children rule), a merged child is re-mounted under a key
extending the node's suffix. -/
theorem compact_main {α : Type} (pch : List Key) (suffix : Key) (c : Option α)
    {cs : List (Key × Trie α)} (hd : disjInvList cs = true)
    (hcl : compactInvList cs = true) :
    (match (compact pch suffix (.mk c cs)).1 with
     | .keep t2 => disjInv t2 = true ∧ compactInvList t2.children = true ∧
         (suffix ≠ [] → compactInv t2 = true)
     | .remove => suffix ≠ []
     | .merged s2 gc => suffix ≠ [] ∧ disjInv gc = true ∧ compactInv gc = true ∧
         ∃ rest, rest ≠ [] ∧ s2 = suffix ++ rest) := by
  cases c with
  | some v =>
    rw [compact_some]
    exact ⟨hd, hcl, fun _ => compactInv_intro (Or.inl rfl) hcl⟩
  | none =>
    by_cases hs : suffix = []
    · subst hs
      rw [compact_root]
      exact ⟨hd, hcl, fun h => absurd rfl h⟩
    · match cs with
      | [] =>
        rw [compact_none_nil pch hs]
        exact hs
      | [(s, gc)] =>
        rw [compact_none_one pch hs s gc]
        obtain ⟨hsne, -, hgc, -⟩ := (disjInvList_cons s gc []).mp hd
        have hcgc : compactInv gc = true :=
          (compactInvList_iff _).mp hcl (s, gc) (List.mem_cons_self _ _)
        exact ⟨hs, hgc, hcgc, s, hsne, rfl⟩
      | e1 :: e2 :: rest =>
        rw [compact_none_big pch hs (by simp)]
        refine ⟨hd, hcl, fun _ => compactInv_intro (Or.inr (by rw [children_mk]; simp)) hcl⟩

/-- Invariant effects of `_del_relative` combined with the cascading
`_compact` calls from `unregister_child`: sibling disjointness and the
compaction invariant hold for whatever survives, a detach or merge only
happens below the root, and the merged suffix extends the old one. -/
theorem delRel_main {α : Type} : ∀ (n : Nat) (rkey : Key) (pch : List Key) (suffix : Key)
    (t : Trie α), rkey.length ≤ n → disjInv t = true →
    compactInvList t.children = true → (suffix ≠ [] → compactInv t = true) →
    ∀ res evs, delRel pch suffix t rkey = .ok (res, evs) →
    (match res with
     | .keep t2 => disjInv t2 = true ∧ compactInvList t2.children = true ∧
         (suffix ≠ [] → compactInv t2 = true)
     | .remove => suffix ≠ []
     | .merged s2 gc => suffix ≠ [] ∧ disjInv gc = true ∧ compactInv gc = true ∧
         ∃ rest, rest ≠ [] ∧ s2 = suffix ++ rest) := by
  intro n
  induction n with
  | zero =>
    intro rkey pch suffix t hn hdi hcl hci res evs hdel
    obtain rfl : rkey = [] := List.length_eq_zero.mp (Nat.le_zero.mp hn)
    obtain ⟨c, cs⟩ := t
    rw [disjInv_mk] at hdi
    rw [children_mk] at hcl
    cases c with
    | none => rw [delRel_nil_none] at hdel; exact Except.noConfusion hdel
    | some v =>
      rw [delRel_nil_some] at hdel
      simp only [Except.ok.injEq, Prod.mk.injEq] at hdel
      obtain ⟨rfl, rfl⟩ := hdel
      exact compact_main pch suffix none hdi hcl
  | succ n ih =>
    intro rkey pch suffix t hn hdi hcl hci res evs hdel
    obtain ⟨c, cs⟩ := t
    rw [disjInv_mk] at hdi
    rw [children_mk] at hcl
    cases rkey with
    | nil =>
      cases c with
      | none => rw [delRel_nil_none] at hdel; exact Except.noConfusion hdel
      | some v =>
        rw [delRel_nil_some] at hdel
        simp only [Except.ok.injEq, Prod.mk.injEq] at hdel
        obtain ⟨rfl, rfl⟩ := hdel
        exact compact_main pch suffix none hdi hcl
    | cons a as =>
      cases hfc : findContainingPfx cs (a :: as) with
      | error e =>
        rw [delRel_err pch suffix c cs (by simp) hfc] at hdel
        exact Except.noConfusion hdel
      | ok found =>
        obtain ⟨p, l, child⟩ := found
        obtain ⟨hsplit, hm, hl⟩ := key_split_of_containing hfc
        obtain ⟨hb, -⟩ := findContainingPfx_ok hfc
        obtain ⟨-, -, hpne⟩ := findBestPfx_pos hb
        have hdc : disjInv child = true := (disjInvList_mem hdi hm).2
        have hnd := disjInvList_keys_nodup hdi
        have hcc : compactInv child = true := (compactInvList_iff cs).mp hcl (p, child) hm
        have hccl : compactInvList child.children = true := (compactInv_elim hcc).2
        have hlen2 : ((a :: as).drop l).length ≤ n := by
          obtain ⟨hpos, -⟩ := findContainingPfx_pos hfc
          simp only [List.length_drop, List.length_cons]
          simp only [List.length_cons] at hn
          omega
        rw [delRel_step pch suffix c cs hfc] at hdel
        cases hsub : delRel (pch ++ [suffix]) p child ((a :: as).drop l) with
        | error e2 =>
          rw [hsub] at hdel
          exact Except.noConfusion hdel
        | ok r =>
          obtain ⟨cres, evs0⟩ := r
          have hihc := ih ((a :: as).drop l) (pch ++ [suffix]) p child hlen2 hdc hccl
            (fun _ => hcc) cres evs0 hsub
          rw [hsub] at hdel
          cases cres with
          | keep child2 =>
            simp only [Except.ok.injEq, Prod.mk.injEq] at hdel
            obtain ⟨rfl, rfl⟩ := hdel
            obtain ⟨hk1, hk2, hk3⟩ := hihc
            refine ⟨disjInvList_replaceKey hdi hk1, ?_, ?_⟩
            · rw [children_mk]
              exact compactInvList_replaceKey hcl (hk3 hpne)
            · intro hsuf
              obtain ⟨htop, -⟩ := compactInv_elim (hci hsuf)
              refine compactInv_intro ?_ ?_
              · rw [content_mk, children_mk, replaceKey_length]
                rw [content_mk, children_mk] at htop
                exact htop
              · rw [children_mk]
                exact compactInvList_replaceKey hcl (hk3 hpne)
          | remove =>
            simp only [Except.ok.injEq, Prod.mk.injEq] at hdel
            obtain ⟨rfl, rfl⟩ := hdel
            exact compact_main pch suffix c
              (disjInvList_of_sublist (eraseKey_sublist cs p) hdi)
              (compactInvList_of_sublist (eraseKey_sublist cs p) hcl)
          | merged s2 gc =>
            simp only [Except.ok.injEq, Prod.mk.injEq] at hdel
            obtain ⟨rfl, rfl⟩ := hdel
            obtain ⟨-, hg1, hg2, rest, hrne, rfl⟩ := hihc
            have hs2ne : p ++ rest ≠ [] := by
              intro hc2
              exact hpne (List.append_eq_nil.mp hc2).1
            have hs2disj : ∀ e ∈ eraseKey cs p, commonPfx e.1 (p ++ rest) = [] := by
              intro e he
              by_contra hce
              have hps2 : commonPfx p (p ++ rest) ≠ [] := by
                rw [commonPfx_append]
                exact hpne
              have h2 : commonPfx e.1 p ≠ [] := commonPfx_head_trans hce hps2
              have hef : e ≠ (p, child) := by
                intro hc2
                exact (eraseKey_key_ne hnd e he) (congrArg Prod.fst hc2)
              exact h2 (disjInvList_disjoint_of_mem hdi (mem_eraseKey he) hm hef)
            have hd2 : disjInvList (eraseKey cs p ++ [(p ++ rest, gc)]) = true :=
              disjInvList_append_one
                (disjInvList_of_sublist (eraseKey_sublist cs p) hdi)
                hs2ne hg1 hs2disj
            have hc2 : compactInvList (eraseKey cs p ++ [(p ++ rest, gc)]) = true :=
              compactInvList_append_one
                (compactInvList_of_sublist (eraseKey_sublist cs p) hcl) hg2
            exact compact_main pch suffix c hd2 hc2
theorem bindingsList_single {α : Type} (s : Key) (gc : Trie α) :
    bindingsList [(s, gc)] = (bindings gc).map (fun b => (s ++ b.1, b.2)) := by
  rw [bindingsList_cons, bindingsList_nil, List.append_nil]

/-- Functional effect of `_del_relative`: the deleted key was bound, it
is no longer bound afterwards, and every other key keeps its value.  The
result is described through the bindings it contributes to the parent
(`mountB`). -/
theorem delRel_bindings {α : Type} : ∀ (n : Nat) (rkey : Key) (pch : List Key) (suffix : Key)
    (t : Trie α), rkey.length ≤ n → disjInv t = true →
    compactInvList t.children = true → (suffix ≠ [] → compactInv t = true) →
    ∀ res evs, delRel pch suffix t rkey = .ok (res, evs) →
    ∃ v, lookupA (bindings t) rkey = some v ∧
    (∀ k2 : Key, lookupA (mountB suffix res) (suffix ++ k2) =
       (if k2 = rkey then none else lookupA (bindings t) k2)) ∧
    (∀ k3 : Key, (∀ k2 : Key, k3 ≠ suffix ++ k2) → lookupA (mountB suffix res) k3 = none) := by
  intro n
  induction n with
  | zero =>
    intro rkey pch suffix t hn hdi hcl hci res evs hdel
    obtain rfl : rkey = [] := List.length_eq_zero.mp (Nat.le_zero.mp hn)
    obtain ⟨c, cs⟩ := t
    rw [disjInv_mk] at hdi
    rw [children_mk] at hcl
    cases c with
    | none => rw [delRel_nil_none] at hdel; exact Except.noConfusion hdel
    | some v =>
      rw [delRel_nil_some] at hdel
      simp only [Except.ok.injEq, Prod.mk.injEq] at hdel
      obtain ⟨rfl, rfl⟩ := hdel
      refine ⟨v, by rw [bindings_mk_some]; rfl, ?_, ?_⟩
      · intro k2
        rw [compact_mount, lookupA_map_pre]
        cases k2 with
        | nil => rw [if_pos rfl, lookupA_bindings_nil hdi]
        | cons b bs =>
          rw [if_neg (by simp), lookupA_bindings_cons, lookupA_bindings_cons]
      · intro k3 hk3
        rw [compact_mount]
        exact lookupA_map_pre_none _ _ _ (fun r hc => hk3 r hc)
  | succ n ih =>
    intro rkey pch suffix t hn hdi hcl hci res evs hdel
    obtain ⟨c, cs⟩ := t
    rw [disjInv_mk] at hdi
    rw [children_mk] at hcl
    cases rkey with
    | nil =>
      cases c with
      | none => rw [delRel_nil_none] at hdel; exact Except.noConfusion hdel
      | some v =>
        rw [delRel_nil_some] at hdel
        simp only [Except.ok.injEq, Prod.mk.injEq] at hdel
        obtain ⟨rfl, rfl⟩ := hdel
        refine ⟨v, by rw [bindings_mk_some]; rfl, ?_, ?_⟩
        · intro k2
          rw [compact_mount, lookupA_map_pre]
          cases k2 with
          | nil => rw [if_pos rfl, lookupA_bindings_nil hdi]
          | cons b bs =>
            rw [if_neg (by simp), lookupA_bindings_cons, lookupA_bindings_cons]
        · intro k3 hk3
          rw [compact_mount]
          exact lookupA_map_pre_none _ _ _ (fun r hc => hk3 r hc)
    | cons a as =>
      cases hfc : findContainingPfx cs (a :: as) with
      | error e =>
        rw [delRel_err pch suffix c cs (by simp) hfc] at hdel
        exact Except.noConfusion hdel
      | ok found =>
        obtain ⟨p, l, child⟩ := found
        obtain ⟨hsplit, hm, hl⟩ := key_split_of_containing hfc
        obtain ⟨hb, -⟩ := findContainingPfx_ok hfc
        obtain ⟨-, -, hpne⟩ := findBestPfx_pos hb
        have hdc : disjInv child = true := (disjInvList_mem hdi hm).2
        have hnd := disjInvList_keys_nodup hdi
        have hcc : compactInv child = true := (compactInvList_iff cs).mp hcl (p, child) hm
        have hccl : compactInvList child.children = true := (compactInv_elim hcc).2
        have hlen2 : ((a :: as).drop l).length ≤ n := by
          obtain ⟨hpos, -⟩ := findContainingPfx_pos hfc
          simp only [List.length_drop, List.length_cons]
          simp only [List.length_cons] at hn
          omega
        have hrhsv : lookupA (bindings (Trie.mk c cs)) (a :: as) =
            lookupA (bindings child) ((a :: as).drop l) := by
          rw [lookupA_bindings_cons]
          conv_lhs => rw [hsplit]
          exact lookupA_bindingsList_pre hdi hm _
        have hiff : ∀ r : Key, (p ++ r = (a :: as)) ↔ r = (a :: as).drop l := by
          intro r
          constructor
          · intro h2
            conv_rhs at h2 => rw [hsplit]
            exact List.append_cancel_left h2
          · intro h2
            rw [h2, ← hsplit]
        rw [delRel_step pch suffix c cs hfc] at hdel
        cases hsub : delRel (pch ++ [suffix]) p child ((a :: as).drop l) with
        | error e2 =>
          rw [hsub] at hdel
          exact Except.noConfusion hdel
        | ok r0 =>
          obtain ⟨cres, evs0⟩ := r0
          obtain ⟨v, hv, hIH1, hIH2⟩ := ih ((a :: as).drop l) (pch ++ [suffix]) p child
            hlen2 hdc hccl (fun _ => hcc) cres evs0 hsub
          have hinv := delRel_main n ((a :: as).drop l) (pch ++ [suffix]) p child
            hlen2 hdc hccl (fun _ => hcc) cres evs0 hsub
          rw [hsub] at hdel
          refine Exists.intro v ?_
          have hvout : lookupA (bindings (Trie.mk c cs)) (a :: as) = some v := by
            rw [hrhsv]; exact hv
          cases cres with
          | keep child2 =>
            simp only [Except.ok.injEq, Prod.mk.injEq] at hdel
            obtain ⟨rfl, rfl⟩ := hdel
            obtain ⟨hk1, -, -⟩ := hinv
            have hd2 : disjInvList (replaceKey cs p child2) = true :=
              disjInvList_replaceKey hdi hk1
            have hchIH : ∀ k2 : Key, lookupA (bindings child2) k2 =
                (if k2 = (a :: as).drop l then none else lookupA (bindings child) k2) := by
              intro k2
              have hh := hIH1 k2
              rw [show mountB p (DelRes.keep child2) =
                (bindings child2).map (fun b => (p ++ b.1, b.2)) from rfl,
                lookupA_map_pre] at hh
              exact hh
            have hN : ∀ k2 : Key, lookupA (bindings (Trie.mk c (replaceKey cs p child2))) k2 =
                (if k2 = (a :: as) then none else lookupA (bindings (Trie.mk c cs)) k2) := by
              intro k2
              cases k2 with
              | nil =>
                rw [if_neg (by simp), lookupA_bindings_nil hd2, lookupA_bindings_nil hdi]
              | cons b bs =>
                rw [lookupA_bindings_cons, lookupA_bindings_cons]
                by_cases hex : ∃ e, e ∈ cs ∧ ∃ r : Key, (b :: bs) = e.1 ++ r
                · obtain ⟨e, he, r, hr⟩ := hex
                  by_cases hep : e.1 = p
                  · obtain rfl : e = (p, child) := entry_eq_of_key_eq hnd hm he hep
                    rw [hr]
                    rw [lookupA_bindingsList_pre hd2 (mem_replaceKey_self hm _) r]
                    rw [lookupA_bindingsList_pre hdi hm r]
                    rw [hchIH r]
                    by_cases hr2 : r = (a :: as).drop l
                    · rw [if_pos hr2, if_pos ((hiff r).mpr hr2)]
                    · rw [if_neg hr2, if_neg (fun h2 => hr2 ((hiff r).mp h2))]
                  · obtain ⟨e1, e2⟩ := e
                    have he1 : e1 ≠ [] := (disjInvList_mem hdi he).1
                    have he3 : (e1, e2) ∈ replaceKey cs p child2 :=
                      mem_replaceKey_of_ne he hep _
                    rw [hr]
                    rw [lookupA_bindingsList_pre hd2 he3 r, lookupA_bindingsList_pre hdi he r]
                    have hne : e1 ++ r ≠ (a :: as) := by
                      intro h2
                      apply hep
                      have huniq := findBestPfx_unique hdi hb (e1, e2) he
                        (commonPfx_ne_nil_of_pre he1 _ h2.symm)
                      exact congrArg Prod.fst huniq
                    rw [if_neg hne]
                · have hne : (b :: bs) ≠ (a :: as) := by
                    intro h2
                    exact hex ⟨(p, child), hm, (a :: as).drop l, by rw [h2]; exact hsplit⟩
                  have hnone1 : ∀ f ∈ replaceKey cs p child2,
                      ∀ r : Key, (b :: bs) ≠ f.1 ++ r := by
                    intro f hf r hc
                    rcases mem_replaceKey hf with hf2 | rfl
                    · exact hex ⟨f, hf2, r, hc⟩
                    · exact hex ⟨(p, child), hm, r, hc⟩
                  rw [if_neg hne, lookupA_bindingsList_none hd2 hnone1,
                    lookupA_bindingsList_none hdi (fun f hf r hc => hex ⟨f, hf, r, hc⟩)]
            refine ⟨hvout, ?_, ?_⟩
            · intro k2
              rw [show mountB suffix (DelRes.keep (Trie.mk c (replaceKey cs p child2))) =
                (bindings (Trie.mk c (replaceKey cs p child2))).map
                  (fun b => (suffix ++ b.1, b.2)) from rfl, lookupA_map_pre]
              exact hN k2
            · intro k3 hk3
              exact lookupA_map_pre_none _ _ _ (fun r hc => hk3 r hc)
          | remove =>
            simp only [Except.ok.injEq, Prod.mk.injEq] at hdel
            obtain ⟨rfl, rfl⟩ := hdel
            have hderase : disjInvList (eraseKey cs p) = true :=
              disjInvList_of_sublist (eraseKey_sublist cs p) hdi
            have hczero : ∀ k2 : Key, k2 ≠ (a :: as).drop l →
                lookupA (bindings child) k2 = none := by
              intro k2 hk2
              have hh := hIH1 k2
              rw [show mountB p (DelRes.remove (α := α)) = [] from rfl] at hh
              rw [if_neg hk2] at hh
              exact hh.symm
            have hN : ∀ k2 : Key, lookupA (bindings (Trie.mk c (eraseKey cs p))) k2 =
                (if k2 = (a :: as) then none else lookupA (bindings (Trie.mk c cs)) k2) := by
              intro k2
              cases k2 with
              | nil =>
                rw [if_neg (by simp), lookupA_bindings_nil hderase, lookupA_bindings_nil hdi]
              | cons b bs =>
                rw [lookupA_bindings_cons, lookupA_bindings_cons]
                by_cases hex : ∃ e, e ∈ cs ∧ ∃ r : Key, (b :: bs) = e.1 ++ r
                · obtain ⟨e, he, r, hr⟩ := hex
                  by_cases hep : e.1 = p
                  · obtain rfl : e = (p, child) := entry_eq_of_key_eq hnd hm he hep
                    rw [hr]
                    rw [lookupA_bindingsList_eraseKey_none hdi hm
                      (commonPfx_ne_nil_of_pre hpne _ rfl)]
                    rw [lookupA_bindingsList_pre hdi hm r]
                    by_cases hr2 : r = (a :: as).drop l
                    · rw [if_pos ((hiff r).mpr hr2)]
                    · rw [if_neg (fun h2 => hr2 ((hiff r).mp h2)), hczero r hr2]
                  · obtain ⟨e1, e2⟩ := e
                    have he1 : e1 ≠ [] := (disjInvList_mem hdi he).1
                    have he3 : (e1, e2) ∈ eraseKey cs p := mem_eraseKey_of_ne he hep
                    rw [hr]
                    rw [lookupA_bindingsList_pre hderase he3 r,
                      lookupA_bindingsList_pre hdi he r]
                    have hne : e1 ++ r ≠ (a :: as) := by
                      intro h2
                      apply hep
                      have huniq := findBestPfx_unique hdi hb (e1, e2) he
                        (commonPfx_ne_nil_of_pre he1 _ h2.symm)
                      exact congrArg Prod.fst huniq
                    rw [if_neg hne]
                · have hne : (b :: bs) ≠ (a :: as) := by
                    intro h2
                    exact hex ⟨(p, child), hm, (a :: as).drop l, by rw [h2]; exact hsplit⟩
                  rw [if_neg hne,
                    lookupA_bindingsList_none hderase
                      (fun f hf r hc => hex ⟨f, mem_eraseKey hf, r, hc⟩),
                    lookupA_bindingsList_none hdi (fun f hf r hc => hex ⟨f, hf, r, hc⟩)]
            refine ⟨hvout, ?_, ?_⟩
            · intro k2
              rw [compact_mount, lookupA_map_pre]
              exact hN k2
            · intro k3 hk3
              rw [compact_mount]
              exact lookupA_map_pre_none _ _ _ (fun r hc => hk3 r hc)
          | merged s2 gc =>
            simp only [Except.ok.injEq, Prod.mk.injEq] at hdel
            obtain ⟨rfl, rfl⟩ := hdel
            obtain ⟨-, hg1, -, rest, hrne, rfl⟩ := hinv
            have hderase : disjInvList (eraseKey cs p) = true :=
              disjInvList_of_sublist (eraseKey_sublist cs p) hdi
            have hs2ne : p ++ rest ≠ [] := by
              intro hc2
              exact hpne (List.append_eq_nil.mp hc2).1
            have hs2disj : ∀ e ∈ eraseKey cs p, commonPfx e.1 (p ++ rest) = [] := by
              intro e he
              by_contra hce
              have hps2 : commonPfx p (p ++ rest) ≠ [] := by
                rw [commonPfx_append]
                exact hpne
              have h2 : commonPfx e.1 p ≠ [] := commonPfx_head_trans hce hps2
              have hef : e ≠ (p, child) := by
                intro hc2
                exact (eraseKey_key_ne hnd e he) (congrArg Prod.fst hc2)
              exact h2 (disjInvList_disjoint_of_mem hdi (mem_eraseKey he) hm hef)
            have hd2 : disjInvList (eraseKey cs p ++ [(p ++ rest, gc)]) = true :=
              disjInvList_append_one hderase hs2ne hg1 hs2disj
            have hmount : mountB p (DelRes.merged (p ++ rest) gc) =
                (bindings gc).map (fun b => ((p ++ rest) ++ b.1, b.2)) := rfl
            have hN : ∀ k2 : Key,
                lookupA (bindings (Trie.mk c (eraseKey cs p ++ [(p ++ rest, gc)]))) k2 =
                (if k2 = (a :: as) then none else lookupA (bindings (Trie.mk c cs)) k2) := by
              intro k2
              cases k2 with
              | nil =>
                rw [if_neg (by simp), lookupA_bindings_nil hd2, lookupA_bindings_nil hdi]
              | cons b bs =>
                rw [lookupA_bindings_cons, lookupA_bindings_cons]
                by_cases hex : ∃ e, e ∈ cs ∧ ∃ r : Key, (b :: bs) = e.1 ++ r
                · obtain ⟨e, he, r, hr⟩ := hex
                  by_cases hep : e.1 = p
                  · obtain rfl : e = (p, child) := entry_eq_of_key_eq hnd hm he hep
                    rw [hr]
                    rw [bindingsList_append, lookupA_append]
                    rw [lookupA_bindingsList_eraseKey_none hdi hm
                      (commonPfx_ne_nil_of_pre hpne _ rfl)]
                    have hstep := hIH1 r
                    rw [hmount] at hstep
                    show lookupA (bindingsList [((p ++ rest), gc)]) (p ++ r) = _
                    rw [bindingsList_single, hstep, lookupA_bindingsList_pre hdi hm r]
                    by_cases hr2 : r = (a :: as).drop l
                    · rw [if_pos hr2, if_pos ((hiff r).mpr hr2)]
                    · rw [if_neg hr2, if_neg (fun h2 => hr2 ((hiff r).mp h2))]
                  · obtain ⟨e1, e2⟩ := e
                    have he1 : e1 ≠ [] := (disjInvList_mem hdi he).1
                    have he3 : (e1, e2) ∈ eraseKey cs p ++ [(p ++ rest, gc)] :=
                      List.mem_append_left _ (mem_eraseKey_of_ne he hep)
                    rw [hr]
                    rw [lookupA_bindingsList_pre hd2 he3 r, lookupA_bindingsList_pre hdi he r]
                    have hne : e1 ++ r ≠ (a :: as) := by
                      intro h2
                      apply hep
                      have huniq := findBestPfx_unique hdi hb (e1, e2) he
                        (commonPfx_ne_nil_of_pre he1 _ h2.symm)
                      exact congrArg Prod.fst huniq
                    rw [if_neg hne]
                · have hne : (b :: bs) ≠ (a :: as) := by
                    intro h2
                    exact hex ⟨(p, child), hm, (a :: as).drop l, by rw [h2]; exact hsplit⟩
                  rw [bindingsList_append, lookupA_append]
                  rw [lookupA_bindingsList_none hderase
                    (fun f hf r hc => hex ⟨f, mem_eraseKey hf, r, hc⟩)]
                  show lookupA (bindingsList [((p ++ rest), gc)]) (b :: bs) = _
                  rw [bindingsList_single]
                  have hmnone : lookupA ((bindings gc).map
                      (fun b2 => ((p ++ rest) ++ b2.1, b2.2))) (b :: bs) = none := by
                    have hh := hIH2 (b :: bs) (fun k2 hc => hex ⟨(p, child), hm, k2, hc⟩)
                    rw [hmount] at hh
                    exact hh
                  rw [hmnone, if_neg hne,
                    lookupA_bindingsList_none hdi (fun f hf r hc => hex ⟨f, hf, r, hc⟩)]
            refine ⟨hvout, ?_, ?_⟩
            · intro k2
              rw [compact_mount, lookupA_map_pre]
              exact hN k2
            · intro k3 hk3
              rw [compact_mount]
              exact lookupA_map_pre_none _ _ _ (fun r hc => hk3 r hc)
/-- During a successful deletion exactly one delete event fires; it
carries the chain of the node whose content was cleared (the
concatenation of that chain is the absolute key) and the old value. -/
theorem delRel_events {α : Type} : ∀ (n : Nat) (rkey : Key) (pch : List Key) (suffix : Key)
    (t : Trie α), rkey.length ≤ n → disjInv t = true →
    ∀ res evs, delRel pch suffix t rkey = .ok (res, evs) →
    ∃ ch0 v, evs.filter isDeleteEvent = [.delete ch0 v] ∧
      ch0.flatten = pch.flatten ++ suffix ++ rkey ∧
      lookupA (bindings t) rkey = some v := by
  intro n
  induction n with
  | zero =>
    intro rkey pch suffix t hn hdi res evs hdel
    obtain rfl : rkey = [] := List.length_eq_zero.mp (Nat.le_zero.mp hn)
    obtain ⟨c, cs⟩ := t
    rw [disjInv_mk] at hdi
    cases c with
    | none => rw [delRel_nil_none] at hdel; exact Except.noConfusion hdel
    | some v =>
      rw [delRel_nil_some] at hdel
      simp only [Except.ok.injEq, Prod.mk.injEq] at hdel
      obtain ⟨rfl, rfl⟩ := hdel
      refine ⟨pch ++ [suffix], v, ?_, ?_, by rw [bindings_mk_some]; rfl⟩
      · rw [List.filter_cons]
        simp [isDeleteEvent, compact_no_delete]
      · rw [List.flatten_append, List.append_nil]
        simp
  | succ n ih =>
    intro rkey pch suffix t hn hdi res evs hdel
    obtain ⟨c, cs⟩ := t
    rw [disjInv_mk] at hdi
    cases rkey with
    | nil =>
      cases c with
      | none => rw [delRel_nil_none] at hdel; exact Except.noConfusion hdel
      | some v =>
        rw [delRel_nil_some] at hdel
        simp only [Except.ok.injEq, Prod.mk.injEq] at hdel
        obtain ⟨rfl, rfl⟩ := hdel
        refine ⟨pch ++ [suffix], v, ?_, ?_, by rw [bindings_mk_some]; rfl⟩
        · rw [List.filter_cons]
          simp [isDeleteEvent, compact_no_delete]
        · rw [List.flatten_append, List.append_nil]
          simp
    | cons a as =>
      cases hfc : findContainingPfx cs (a :: as) with
      | error e =>
        rw [delRel_err pch suffix c cs (by simp) hfc] at hdel
        exact Except.noConfusion hdel
      | ok found =>
        obtain ⟨p, l, child⟩ := found
        obtain ⟨hsplit, hm, hl⟩ := key_split_of_containing hfc
        have hdc : disjInv child = true := (disjInvList_mem hdi hm).2
        have hlen2 : ((a :: as).drop l).length ≤ n := by
          obtain ⟨hpos, -⟩ := findContainingPfx_pos hfc
          simp only [List.length_drop, List.length_cons]
          simp only [List.length_cons] at hn
          omega
        rw [delRel_step pch suffix c cs hfc] at hdel
        cases hsub : delRel (pch ++ [suffix]) p child ((a :: as).drop l) with
        | error e2 =>
          rw [hsub] at hdel
          exact Except.noConfusion hdel
        | ok r0 =>
          obtain ⟨cres, evs0⟩ := r0
          obtain ⟨ch0, v, hev, hch, hv⟩ := ih ((a :: as).drop l) (pch ++ [suffix]) p child
            hlen2 hdc cres evs0 hsub
          rw [hsub] at hdel
          have hch2 : ch0.flatten = pch.flatten ++ suffix ++ (a :: as) := by
            rw [hch, List.flatten_append]
            conv_rhs => rw [hsplit]
            simp [List.append_assoc]
          have hv2 : lookupA (bindings (Trie.mk c cs)) (a :: as) = some v := by
            rw [lookupA_bindings_cons]
            conv_lhs => rw [hsplit]
            rw [lookupA_bindingsList_pre hdi hm _]
            exact hv
          cases cres with
          | keep child2 =>
            simp only [Except.ok.injEq, Prod.mk.injEq] at hdel
            obtain ⟨rfl, rfl⟩ := hdel
            exact ⟨ch0, v, hev, hch2, hv2⟩
          | remove =>
            simp only [Except.ok.injEq, Prod.mk.injEq] at hdel
            obtain ⟨rfl, rfl⟩ := hdel
            refine ⟨ch0, v, ?_, hch2, hv2⟩
            rw [List.filter_append, hev, compact_no_delete, List.append_nil]
          | merged s2 gc =>
            simp only [Except.ok.injEq, Prod.mk.injEq] at hdel
            obtain ⟨rfl, rfl⟩ := hdel
            refine ⟨ch0, v, ?_, hch2, hv2⟩
            rw [List.filter_append, hev, compact_no_delete, List.append_nil]

theorem rootInv_iff {α : Type} (t : Trie α) :
    rootInv t = true ↔ disjInv t = true ∧ compactInvList t.children = true := by
  rw [rootInv, Bool.and_eq_true]

theorem except_toOption_some {α : Type} {e : Except String α} {v : α} :
    e.toOption = some v ↔ e = .ok v := by
  cases e with
  | error msg => simp [Except.toOption]
  | ok w => simp [Except.toOption]

theorem except_toOption_none {α : Type} {e : Except String α} :
    e.toOption = none ↔ ∃ msg, e = .error msg := by
  cases e with
  | error msg => simp [Except.toOption]
  | ok w => simp [Except.toOption]

/-- Public deletion at the root: the root is never detached or merged,
the invariants are preserved, the deleted key was bound and loses its
binding, and all other keys are untouched. -/
theorem delRoot_ok {α : Type} {t : Trie α} {k : Key} (hr : rootInv t = true)
    {t2 : Trie α} {evs : List (Event α)} (hdel : t.delRoot k = .ok (t2, evs)) :
    rootInv t2 = true ∧
    (∃ v, lookupA (bindings t) k = some v) ∧
    (∀ k2 : Key, lookupA (bindings t2) k2 =
       (if k2 = k then none else lookupA (bindings t) k2)) ∧
    (∃ ch0 v, evs.filter isDeleteEvent = [.delete ch0 v] ∧ ch0.flatten = k ∧
      lookupA (bindings t) k = some v) := by
  obtain ⟨hdi, hcl⟩ := (rootInv_iff t).mp hr
  rw [Trie.delRoot] at hdel
  cases hsub : delRel ([] : List Key) ([] : Key) t k with
  | error e => rw [hsub] at hdel; exact Except.noConfusion hdel
  | ok r0 =>
    obtain ⟨res, evs0⟩ := r0
    have hinv := delRel_main k.length k [] [] t (Nat.le_refl _) hdi hcl
      (fun h => absurd rfl h) res evs0 hsub
    obtain ⟨v, hv, hb1, -⟩ := delRel_bindings k.length k [] [] t (Nat.le_refl _) hdi hcl
      (fun h => absurd rfl h) res evs0 hsub
    obtain ⟨ch0, v2, hev, hch, hv3⟩ := delRel_events k.length k [] [] t (Nat.le_refl _)
      hdi res evs0 hsub
    rw [hsub] at hdel
    cases res with
    | remove => exact absurd rfl hinv
    | merged s2 gc => exact absurd rfl hinv.1
    | keep t3 =>
      simp only [Except.ok.injEq, Prod.mk.injEq] at hdel
      obtain ⟨rfl, rfl⟩ := hdel
      obtain ⟨hk1, hk2, -⟩ := hinv
      refine ⟨(rootInv_iff t3).mpr ⟨hk1, hk2⟩, ⟨v, hv⟩, ?_, ?_⟩
      · intro k2
        have hh := hb1 k2
        rw [show mountB ([] : Key) (DelRes.keep t3) =
          (bindings t3).map (fun b => (([] : Key) ++ b.1, b.2)) from rfl,
          map_mount_nil] at hh
        exact hh
      · refine ⟨ch0, v2, hev, ?_, hv3⟩
        rw [hch]
        rfl

/-- Public deletion fails exactly when lookup fails. -/
theorem delRoot_error_iff {α : Type} {t : Trie α} {k : Key} (hr : rootInv t = true) :
    (∃ e, t.delRoot k = .error e) ↔ lookupA (bindings t) k = none := by
  obtain ⟨hdi, -⟩ := (rootInv_iff t).mp hr
  rw [← delRel_error_iff k.length k [] [] t (Nat.le_refl _) hdi]
  rw [Trie.delRoot]
  cases delRel ([] : List Key) ([] : Key) t k with
  | error e => simp
  | ok r0 =>
    obtain ⟨res, evs0⟩ := r0
    cases res with
    | keep t3 => simp
    | remove => simp
    | merged s2 gc => simp

/-- Public insertion at the root preserves the invariants. -/
theorem setRoot_inv {α : Type} {t : Trie α} (k : Key) (v : α) (hr : rootInv t = true) :
    rootInv (t.setRoot k v).1 = true := by
  obtain ⟨hdi, hcl⟩ := (rootInv_iff t).mp hr
  obtain ⟨h1, h2, -, -⟩ := setRel_main k.length k [[]] t v (Nat.le_refl _) hdi
  exact (rootInv_iff _).mpr ⟨h1, h2 hcl⟩

/-- Lookup through `__getitem__` agrees with the binding list. -/
theorem getRoot_toOption {α : Type} {t : Trie α} (hr : rootInv t = true) (k : Key) :
    (t.getRoot k).toOption = lookupA (bindings t) k := by
  obtain ⟨hdi, -⟩ := (rootInv_iff t).mp hr
  exact getRel_toOption_eq k.length k t (Nat.le_refl _) hdi
/-- Fold a list of insertions over a trie (repeated `trie[key] = value`). -/
def setAll {α : Type} (t : Trie α) (ps : List (Key × α)) : Trie α :=
  ps.foldl (fun t p => (t.setRoot p.1 p.2).1) t

/-- Fold a list of deletions over a trie (repeated `del trie[key]`),
stopping at the first `KeyError`. -/
def deleteAll {α : Type} : Trie α → List Key → Except String (Trie α)
  | t, [] => .ok t
  | t, k :: ks =>
    match t.delRoot k with
    | .error e => .error e
    | .ok (t2, _) => deleteAll t2 ks

theorem setAll_inv {α : Type} : ∀ (ps : List (Key × α)) (t : Trie α),
    rootInv t = true → rootInv (setAll t ps) = true := by
  intro ps
  induction ps with
  | nil => intro t h; exact h
  | cons q rest ih =>
    intro t h
    rw [setAll, List.foldl_cons]
    exact ih _ (setRoot_inv q.1 q.2 h)

theorem setAll_bindings {α : Type} : ∀ (ps : List (Key × α)) (t : Trie α),
    rootInv t = true → ∀ k : Key,
    lookupA (bindings (setAll t ps)) k =
      (match lookupA ps.reverse k with
       | some v => some v
       | none => lookupA (bindings t) k) := by
  intro ps
  induction ps with
  | nil =>
    intro t h k
    rw [setAll, List.foldl_nil, List.reverse_nil]
    rfl
  | cons q rest ih =>
    intro t h k
    rw [setAll, List.foldl_cons, List.reverse_cons]
    have ht2 : rootInv (t.setRoot q.1 q.2).1 = true := setRoot_inv q.1 q.2 h
    have hstep := ih ((t.setRoot q.1 q.2).1) ht2 k
    rw [show setAll (t.setRoot q.1 q.2).1 rest =
      List.foldl (fun t p => (t.setRoot p.1 p.2).1) (t.setRoot q.1 q.2).1 rest from rfl] at hstep
    rw [hstep, lookupA_append]
    obtain ⟨hdi, -⟩ := (rootInv_iff t).mp h
    have hset := setRel_bindings q.1.length q.1 [[]] t q.2 (Nat.le_refl _) hdi k
    cases hw : lookupA rest.reverse k with
    | some w => rfl
    | none =>
      have hset2 : lookupA (bindings (t.setRoot q.1 q.2).1) k =
          (if k = q.1 then some q.2 else lookupA (bindings t) k) := hset
      rw [hset2, lookupA]
      by_cases hqk : q.1 = k
      · rw [if_pos hqk, if_pos hqk.symm]
      · rw [if_neg hqk, if_neg (fun h2 => hqk h2.symm), lookupA]

theorem lookupA_isSome_iff {β : Type} : ∀ (xs : List (Key × β)) (k : Key),
    (lookupA xs k).isSome = true ↔ k ∈ xs.map Prod.fst := by
  intro xs k
  induction xs with
  | nil =>
    rw [show lookupA ([] : List (Key × β)) k = none from rfl, List.map_nil]
    constructor
    · intro h
      exact Bool.noConfusion h
    · intro h
      exact absurd h (List.not_mem_nil k)
  | cons e rest ih =>
    obtain ⟨p, v⟩ := e
    by_cases hpk : p = k
    · subst hpk
      rw [lookupA, if_pos rfl, List.map_cons]
      constructor
      · intro h2
        exact List.mem_cons_self _ _
      · intro h2
        rfl
    · rw [lookupA, if_neg hpk, List.map_cons]
      rw [ih]
      constructor
      · intro h2
        exact List.mem_cons_of_mem _ h2
      · intro h2
        rcases List.mem_cons.mp h2 with h3 | h3
        · exact absurd h3.symm hpk
        · exact h3

theorem lookupA_mem_nodup {β : Type} : ∀ (xs : List (Key × β)) (k : Key) (v : β),
    (xs.map Prod.fst).Nodup → (k, v) ∈ xs → lookupA xs k = some v := by
  intro xs k v hnd hm
  induction xs with
  | nil => simp at hm
  | cons e rest ih =>
    obtain ⟨p, w⟩ := e
    rw [List.map_cons, List.nodup_cons] at hnd
    rcases List.mem_cons.mp hm with hf | hm2
    · obtain ⟨rfl, rfl⟩ : p = k ∧ w = v :=
        ⟨(congrArg Prod.fst hf).symm, (congrArg Prod.snd hf).symm⟩
      rw [lookupA, if_pos rfl]
    · have hpk : p ≠ k := by
        intro hc
        subst hc
        exact hnd.1 (List.mem_map.mpr ⟨(p, v), hm2, rfl⟩)
      rw [lookupA, if_neg hpk]
      exact ih hnd.2 hm2

/-- A node satisfying the compaction invariant holds at least one
binding: it has content, or at least two children which recursively hold
bindings. -/
theorem bindings_ne_nil_of_compactInv {α : Type} : ∀ (n : Nat) (t : Trie α),
    t.size ≤ n → compactInv t = true → bindings t ≠ [] := by
  intro n
  induction n with
  | zero =>
    intro t hn
    have := size_pos t
    omega
  | succ n ih =>
    intro t hn hc
    obtain ⟨c, cs⟩ := t
    obtain ⟨htop, hlist⟩ := compactInv_elim hc
    cases c with
    | some v => rw [bindings_mk_some]; simp
    | none =>
      rw [content_mk] at htop
      rcases htop with h1 | h1
      · simp at h1
      · rw [children_mk] at h1
        match cs, h1 with
        | (k0, c0) :: rest, _ =>
          rw [bindings_mk_none, bindingsList_cons]
          have hc0 : compactInv c0 = true :=
            (compactInvList_iff _).mp (by rw [children_mk] at hlist; exact hlist)
              (k0, c0) (List.mem_cons_self _ _)
          have hsz : c0.size ≤ n := by
            rw [size_mk, sizeList_cons] at hn
            have := size_pos c0
            omega
          have hne := ih c0 hsz hc0
          intro hcon
          rcases List.append_eq_nil.mp hcon with ⟨h2, -⟩
          exact hne (List.map_eq_nil_iff.mp h2)

/-- A trie satisfying the invariants with no bindings at all is exactly
the bare root: no content and no children. -/
theorem singleton_of_no_bindings {α : Type} {t : Trie α} (hr : rootInv t = true)
    (hb : bindings t = []) : t = Trie.mk none [] := by
  obtain ⟨-, hcl⟩ := (rootInv_iff t).mp hr
  obtain ⟨c, cs⟩ := t
  cases c with
  | some v => rw [bindings_mk_some] at hb; exact absurd hb (by simp)
  | none =>
    rw [bindings_mk_none] at hb
    cases cs with
    | nil => rfl
    | cons e rest =>
      obtain ⟨k0, c0⟩ := e
      rw [bindingsList_cons] at hb
      rcases List.append_eq_nil.mp hb with ⟨h2, -⟩
      have hc0 : compactInv c0 = true :=
        (compactInvList_iff _).mp (by rw [children_mk] at hcl; exact hcl)
          (k0, c0) (List.mem_cons_self _ _)
      exact absurd (List.map_eq_nil_iff.mp h2)
        (bindings_ne_nil_of_compactInv c0.size c0 (Nat.le_refl _) hc0)

/-- Deleting, in any order, a duplicate-free list of keys covering
exactly the bound keys empties the trie down to the bare root. -/
theorem deleteAll_complete {α : Type} : ∀ (ks : List Key) (t : Trie α),
    rootInv t = true → ks.Nodup →
    (∀ k ∈ ks, (lookupA (bindings t) k).isSome = true) →
    (∀ k : Key, (lookupA (bindings t) k).isSome = true → k ∈ ks) →
    deleteAll t ks = .ok (Trie.mk none []) := by
  intro ks
  induction ks with
  | nil =>
    intro t hr hnd hall honly
    have hb : bindings t = [] := by
      cases hbc : bindings t with
      | nil => rfl
      | cons e rest =>
        exfalso
        have : (lookupA (bindings t) e.1).isSome = true := by
          rw [hbc]
          obtain ⟨k0, v0⟩ := e
          rw [lookupA, if_pos rfl]
          rfl
        exact absurd (honly e.1 this) (by simp)
    rw [deleteAll, singleton_of_no_bindings hr hb]
  | cons k ks ih =>
    intro t hr hnd hall honly
    rw [List.nodup_cons] at hnd
    have hsome : (lookupA (bindings t) k).isSome = true :=
      hall k (List.mem_cons_self _ _)
    cases hdel : t.delRoot k with
    | error e =>
      exfalso
      have := (delRoot_error_iff hr).mp ⟨e, hdel⟩
      rw [this] at hsome
      exact absurd hsome (by simp)
    | ok r0 =>
      obtain ⟨t2, evs⟩ := r0
      obtain ⟨hr2, -, hlook, -⟩ := delRoot_ok hr hdel
      rw [deleteAll, hdel]
      refine ih t2 hr2 hnd.2 ?_ ?_
      · intro k2 hk2
        have hne : k2 ≠ k := by
          intro hc
          subst hc
          exact hnd.1 hk2
        rw [hlook k2, if_neg hne]
        exact hall k2 (List.mem_cons_of_mem _ hk2)
      · intro k2 hk2
        rw [hlook k2] at hk2
        by_cases hne : k2 = k
        · rw [if_pos hne] at hk2
          exact absurd hk2 (by simp)
        · rw [if_neg hne] at hk2
          rcases List.mem_cons.mp (honly k2 hk2) with h3 | h3
          · exact absurd h3 hne
          · exact h3
/-! ## The claims -/

/-- C1: for every finite set of distinct non-empty keys with arbitrary
values, performing `trie[key] = value` for each pair and then
`trie[key]` for each key returns, for every key, the value set for that
key (each key appears once, so the value set for it is the value most
recently set). -/
theorem claim_C1_round_trip {α : Type} (ps : List (Key × α))
    (hne : ∀ p ∈ ps, p.1 ≠ []) (hnd : (ps.map Prod.fst).Nodup) :
    ∀ p ∈ ps, Trie.getRoot (setAll emptyTrie ps) p.1 = .ok p.2 := by
  intro p hp
  have hri : rootInv (emptyTrie : Trie α) = true := rfl
  have hrevnd : (ps.reverse.map Prod.fst).Nodup := by
    rw [List.map_reverse]
    exact List.nodup_reverse.mpr hnd
  have hrev : lookupA ps.reverse p.1 = some p.2 :=
    lookupA_mem_nodup ps.reverse p.1 p.2 hrevnd (List.mem_reverse.mpr hp)
  have hall := setAll_bindings ps emptyTrie hri p.1
  rw [hrev] at hall
  have hall2 : lookupA (bindings (setAll (emptyTrie : Trie α) ps)) p.1 = some p.2 := hall
  have hro : rootInv (setAll (emptyTrie : Trie α) ps) = true := setAll_inv ps emptyTrie hri
  have hopt := getRoot_toOption hro p.1
  rw [hall2] at hopt
  exact except_toOption_some.mp hopt

/-- Witness for `claim_C1_round_trip` at a concrete three-key input. -/
theorem claim_C1_round_trip_witness :
    (∀ p ∈ ([([ 'c', 'a', 't' ], 1), ([ 'c', 'a', 'r' ], 2), ([ 'd' ], 3)] :
        List (Key × Nat)), p.1 ≠ []) ∧
    (([([ 'c', 'a', 't' ], 1), ([ 'c', 'a', 'r' ], 2), ([ 'd' ], 3)] :
        List (Key × Nat)).map Prod.fst).Nodup ∧
    ∀ p ∈ ([([ 'c', 'a', 't' ], 1), ([ 'c', 'a', 'r' ], 2), ([ 'd' ], 3)] :
        List (Key × Nat)),
      Trie.getRoot (setAll emptyTrie
        [([ 'c', 'a', 't' ], 1), ([ 'c', 'a', 'r' ], 2), ([ 'd' ], 3)]) p.1 = .ok p.2 :=
  ⟨by decide, by decide, claim_C1_round_trip _ (by decide) (by decide)⟩

/-- C2: after a successful `del trie[key]`, `trie[key]` fails; and after
deleting (in any order, without repetition) every key that was ever
inserted, the trie is the bare root: one node, no content, no
children. -/
theorem claim_C2_deletion_completeness {α : Type} :
    (∀ (t : Trie α) (k : Key) (t2 : Trie α) (evs : List (Event α)),
       rootInv t = true → t.delRoot k = .ok (t2, evs) →
       ∃ e, t2.getRoot k = .error e) ∧
    (∀ (ps : List (Key × α)) (ks : List Key),
       ks.Nodup → (∀ k ∈ ks, k ∈ ps.map Prod.fst) → (∀ p ∈ ps, p.1 ∈ ks) →
       deleteAll (setAll emptyTrie ps) ks = .ok (Trie.mk none [])) := by
  constructor
  · intro t k t2 evs hr hdel
    obtain ⟨hr2, -, hlook, -⟩ := delRoot_ok hr hdel
    have hnone : lookupA (bindings t2) k = none := by
      rw [hlook k, if_pos rfl]
    have hopt := getRoot_toOption hr2 k
    rw [hnone] at hopt
    exact except_toOption_none.mp hopt
  · intro ps ks hnd hks hps
    have hri : rootInv (emptyTrie : Trie α) = true := rfl
    have hrt : rootInv (setAll (emptyTrie : Trie α) ps) = true := setAll_inv ps emptyTrie hri
    refine deleteAll_complete ks _ hrt hnd ?_ ?_
    · intro k hk
      have hrevm : k ∈ ps.reverse.map Prod.fst := by
        rw [List.map_reverse, List.mem_reverse]
        exact hks k hk
      have hsome := (lookupA_isSome_iff ps.reverse k).mpr hrevm
      have hall := setAll_bindings ps emptyTrie hri k
      cases hrl : lookupA ps.reverse k with
      | none =>
        rw [hrl] at hsome
        exact Bool.noConfusion hsome
      | some v =>
        rw [hrl] at hall
        have hall2 : lookupA (bindings (setAll (emptyTrie : Trie α) ps)) k = some v := hall
        rw [hall2]
        rfl
    · intro k hk
      have hall := setAll_bindings ps emptyTrie hri k
      cases hrl : lookupA ps.reverse k with
      | none =>
        rw [hrl] at hall
        have hall2 : lookupA (bindings (setAll (emptyTrie : Trie α) ps)) k =
            lookupA (bindings (emptyTrie : Trie α)) k := hall
        have hemp : lookupA (bindings (emptyTrie : Trie α)) k = none := rfl
        rw [hall2, hemp] at hk
        exact Bool.noConfusion hk
      | some v =>
        have hrevm : k ∈ ps.reverse.map Prod.fst := by
          apply (lookupA_isSome_iff ps.reverse k).mp
          rw [hrl]
          rfl
        have hmem : k ∈ ps.map Prod.fst := by
          rw [List.map_reverse, List.mem_reverse] at hrevm
          exact hrevm
        obtain ⟨p, hpm, hpk⟩ := List.mem_map.mp hmem
        rw [← hpk]
        exact hps p hpm

/-- Witness for `claim_C2_deletion_completeness`: deleting the one key of a
singleton trie makes it unreadable, and deleting both keys of a two-key
trie leaves the bare root. -/
theorem claim_C2_deletion_completeness_witness :
    (∃ e, Trie.getRoot (Trie.mk (none : Option Nat) []) [ 'a' ] = .error e) ∧
    deleteAll (setAll (emptyTrie : Trie Nat) [([ 'a' ], 1), ([ 'b', 'c' ], 2)])
      [[ 'a' ], [ 'b', 'c' ]] = .ok (Trie.mk none []) :=
  ⟨claim_C2_deletion_completeness.1 (Trie.mk none [([ 'a' ], Trie.mk (some 1) [])])
      [ 'a' ] (Trie.mk none []) [.delete [[], [ 'a' ]] 1, .remove [[], [ 'a' ]]]
      (by decide)
      (by simp [Trie.delRoot, delRel, findContainingPfx, findBestPfx, commonPfx,
            compact, eraseKey, replaceKey]),
   claim_C2_deletion_completeness.2 [([ 'a' ], 1), ([ 'b', 'c' ], 2)]
      [[ 'a' ], [ 'b', 'c' ]] (by decide) (by decide) (by decide)⟩

/-- C3: the claim says `KeyNotFound` is the only error a public operation
can raise on a trie with the default no-op reactor, in particular that a
delete triggering compaction succeeds.  The code refutes this: a
successful delete that empties a node runs `_compact`, which calls
`self._reactor.remove_callback(self.chain)`, but neither `Reactor` nor
`EmptyReactor` defines `remove_callback` (reactor.py declares only
delete, insert, create and move), so the call raises `AttributeError`.
In the model: the event trace of such a delete contains a remove event,
and the default sink handles no remove event. -/
theorem claim_C3_remove_event_unhandled :
    Trie.delRoot (Trie.mk (none : Option Nat) [([ 'a' ], Trie.mk (some 1) [])]) [ 'a' ] =
      .ok (Trie.mk none [], [.delete [[], [ 'a' ]] 1, .remove [[], [ 'a' ]]]) ∧
    rootInv (Trie.mk (none : Option Nat) [([ 'a' ], Trie.mk (some 1) [])]) = true ∧
    Event.remove [[], [ 'a' ]] ∈
      ([.delete [[], [ 'a' ]] 1, .remove [[], [ 'a' ]]] : List (Event Nat)) ∧
    emptyReactorHandles (Event.remove [[], [ 'a' ]] : Event Nat) = false := by
  refine ⟨?_, by decide, by decide, rfl⟩
  simp [Trie.delRoot, delRel, findContainingPfx, findBestPfx, commonPfx, compact,
    eraseKey, replaceKey]

/-- C4: sibling disjointness holds after every public mutating operation:
starting from a trie satisfying the root invariant, both `trie[key] =
value` and a successful `del trie[key]` leave a trie in which, at every
node, child suffixes are non-empty and no two distinct sibling suffixes
share a non-empty common prefix (`disjInv`). -/
theorem claim_C4_sibling_disjointness {α : Type} (t : Trie α) (k : Key) (v : α)
    (hr : rootInv t = true) :
    disjInv (t.setRoot k v).1 = true ∧
    ∀ (t2 : Trie α) (evs : List (Event α)),
      t.delRoot k = .ok (t2, evs) → disjInv t2 = true := by
  obtain ⟨hdi, -⟩ := (rootInv_iff t).mp hr
  constructor
  · exact (setRel_main k.length k [[]] t v (Nat.le_refl _) hdi).1
  · intro t2 evs hdel
    obtain ⟨hr2, -, -, -⟩ := delRoot_ok hr hdel
    exact ((rootInv_iff t2).mp hr2).1

/-- Witness for `claim_C4_sibling_disjointness` on a concrete singleton
trie. -/
theorem claim_C4_sibling_disjointness_witness :
    rootInv (Trie.mk (none : Option Nat) [([ 'a' ], Trie.mk (some 1) [])]) = true ∧
    (disjInv ((Trie.mk (none : Option Nat)
        [([ 'a' ], Trie.mk (some 1) [])]).setRoot [ 'a', 'b' ] 2).1 = true ∧
     ∀ (t2 : Trie Nat) (evs : List (Event Nat)),
       (Trie.mk (none : Option Nat)
         [([ 'a' ], Trie.mk (some 1) [])]).delRoot [ 'a', 'b' ] = .ok (t2, evs) →
       disjInv t2 = true) :=
  ⟨by decide, claim_C4_sibling_disjointness _ [ 'a', 'b' ] 2 (by decide)⟩

/-- C5: the compaction invariant holds after every public operation, at
every level: starting from a trie satisfying the root invariant, both
`trie[key] = value` and a successful `del trie[key]` leave a trie in
which every non-root node without content has at least two children
(`compactInvList` over the root's children covers every non-root
node). -/
theorem claim_C5_compaction_invariant {α : Type} (t : Trie α) (k : Key) (v : α)
    (hr : rootInv t = true) :
    compactInvList (t.setRoot k v).1.children = true ∧
    ∀ (t2 : Trie α) (evs : List (Event α)),
      t.delRoot k = .ok (t2, evs) → compactInvList t2.children = true := by
  obtain ⟨hdi, hcl⟩ := (rootInv_iff t).mp hr
  constructor
  · exact (setRel_main k.length k [[]] t v (Nat.le_refl _) hdi).2.1 hcl
  · intro t2 evs hdel
    obtain ⟨hr2, -, -, -⟩ := delRoot_ok hr hdel
    exact ((rootInv_iff t2).mp hr2).2

/-- Witness for `claim_C5_compaction_invariant` on a concrete singleton
trie. -/
theorem claim_C5_compaction_invariant_witness :
    rootInv (Trie.mk (none : Option Nat) [([ 'a' ], Trie.mk (some 1) [])]) = true ∧
    (compactInvList ((Trie.mk (none : Option Nat)
        [([ 'a' ], Trie.mk (some 1) [])]).setRoot [ 'a', 'b' ] 2).1.children = true ∧
     ∀ (t2 : Trie Nat) (evs : List (Event Nat)),
       (Trie.mk (none : Option Nat)
         [([ 'a' ], Trie.mk (some 1) [])]).delRoot [ 'a', 'b' ] = .ok (t2, evs) →
       compactInvList t2.children = true) :=
  ⟨by decide, claim_C5_compaction_invariant _ [ 'a', 'b' ] 2 (by decide)⟩

/-- C6 counterexample: the claim says the delete event carries the parent
chain of the node whose content was cleared.  Deleting key "a" from the
trie {"a": 2} clears the content of the child node, whose parent is the
root with chain `[[]]`; the delete event fired carries `[[], ['a']]`
(the cleared node's own chain, `self.chain` in `_del_relative`), which
is not the parent chain `[[]]`. -/
theorem claim_C6_counterexample :
    Trie.delRoot (Trie.mk (none : Option Nat) [([ 'a' ], Trie.mk (some 2) [])]) [ 'a' ] =
      .ok (Trie.mk none [], [.delete [[], [ 'a' ]] 2, .remove [[], [ 'a' ]]]) ∧
    ([[], [ 'a' ]] : List Key) ≠ [[]] := by
  refine ⟨?_, by decide⟩
  simp [Trie.delRoot, delRel, findContainingPfx, findBestPfx, commonPfx, compact,
    eraseKey, replaceKey]

/-- C6 (amended): for every successful `del trie[key]` on a trie
satisfying the root invariant, exactly one delete event fires; it
carries the full chain of the node whose content was cleared — whose
concatenation is the deleted key — together with the old value stored
under the key. -/
theorem claim_C6_delete_event_payload {α : Type} (t : Trie α) (k : Key)
    (hr : rootInv t = true) (t2 : Trie α) (evs : List (Event α))
    (hdel : t.delRoot k = .ok (t2, evs)) :
    ∃ ch0 v, evs.filter isDeleteEvent = [.delete ch0 v] ∧ ch0.flatten = k ∧
      lookupA (bindings t) k = some v := by
  obtain ⟨-, -, -, h4⟩ := delRoot_ok hr hdel
  exact h4

/-- Witness for `claim_C6_delete_event_payload` on the deletion of key
"a" from the trie {"a": 2}. -/
theorem claim_C6_delete_event_payload_witness :
    rootInv (Trie.mk (none : Option Nat) [([ 'a' ], Trie.mk (some 2) [])]) = true ∧
    ∃ ch0 v,
      ([.delete [[], [ 'a' ]] 2, .remove [[], [ 'a' ]]] :
          List (Event Nat)).filter isDeleteEvent = [.delete ch0 v] ∧
      ch0.flatten = [ 'a' ] ∧
      lookupA (bindings (Trie.mk (none : Option Nat)
        [([ 'a' ], Trie.mk (some 2) [])])) [ 'a' ] = some v :=
  ⟨by decide,
   claim_C6_delete_event_payload _ [ 'a' ] (by decide) (Trie.mk none [])
     [.delete [[], [ 'a' ]] 2, .remove [[], [ 'a' ]]]
     (by simp [Trie.delRoot, delRel, findContainingPfx, findBestPfx, commonPfx,
           compact, eraseKey, replaceKey])⟩

/-- C7 counterexample: the claim says that when the inserted relative key
is a strict prefix of an existing child's suffix the events fire in the
order create, move, insert.  Inserting key "a" into the trie {"ab": 1}
fires `[create, insert, move]`: the code first runs
`_add_in_new_subtrie` (which creates the node and sets its value, firing
create then insert) and only then `_move_subtree_down` (firing move), so
in the trace the insert event stands before the move event and no
ordering places the move first. -/
theorem claim_C7_counterexample :
    (((emptyTrie : Trie Nat).setRoot [ 'a', 'b' ] 1).1.setRoot [ 'a' ] 2).2 =
      [.create [[], [ 'a' ]], .insert [[], [ 'a' ]] 2,
       .move [[]] [ 'a', 'b' ] [[], [ 'a' ]] [ 'b' ]] ∧
    ¬ ∃ i j : Fin 3, (i : Nat) < (j : Nat) ∧
      [Event.create [[], [ 'a' ]], Event.insert [[], [ 'a' ]] 2,
        Event.move [[]] [ 'a', 'b' ] [[], [ 'a' ]] [ 'b' ]].get i =
        Event.move [[]] [ 'a', 'b' ] [[], [ 'a' ]] [ 'b' ] ∧
      [Event.create [[], [ 'a' ]], Event.insert [[], [ 'a' ]] 2,
        Event.move [[]] [ 'a', 'b' ] [[], [ 'a' ]] [ 'b' ]].get j =
        Event.insert [[], [ 'a' ]] 2 := by
  refine ⟨?_, by decide⟩
  simp [Trie.setRoot, setRel, findBestPfx, commonPfx, emptyTrie, eraseKey, replaceKey]

/-- C7 (amended): when the inserted relative key is a strict prefix of an
existing child's suffix (possibility 3 of `_set_relative`), the events
fire in the order create (for the new node), then insert (for the value
stored on it), then move (for the existing child reparented under
it). -/
theorem claim_C7_event_order {α : Type} (ch : List Key) (c : Option α)
    (cs : List (Key × Trie α)) (rkey p : Key) (l : Nat) (child : Trie α) (v : α)
    (hf : findBestPfx cs rkey = some (p, l, child)) (hlp : ¬ l = p.length)
    (hlr : l = rkey.length) :
    (setRel ch (.mk c cs) rkey v).2 =
      [.create (ch ++ [rkey]), .insert (ch ++ [rkey]) v,
       .move ch p (ch ++ [rkey]) (p.drop l)] := by
  rw [setRel_case3 ch c cs v hf hlp hlr]

/-- Witness for `claim_C7_event_order`: inserting "a" over the child
"ab". -/
theorem claim_C7_event_order_witness :
    findBestPfx [([ 'a', 'b' ], Trie.mk (some 1) [])] [ 'a' ] =
      some ([ 'a', 'b' ], 1, Trie.mk (some (1 : Nat)) []) ∧
    (setRel [[]] (Trie.mk (none : Option Nat)
        [([ 'a', 'b' ], Trie.mk (some 1) [])]) [ 'a' ] 2).2 =
      [.create [[], [ 'a' ]], .insert [[], [ 'a' ]] 2,
       .move [[]] [ 'a', 'b' ] [[], [ 'a' ]] [ 'b' ]] :=
  ⟨rfl, by
    rw [claim_C7_event_order [[]] none [([ 'a', 'b' ], Trie.mk (some 1) [])]
      [ 'a' ] [ 'a', 'b' ] 1 (Trie.mk (some 1) []) 2 rfl (by decide) rfl]
    rfl⟩

/-- C8: deleting an absent key fails and changes nothing: on a trie
satisfying the root invariant, if `trie[key]` fails then `del
trie[key]` also fails, and in particular never returns a new trie or an
event trace (the Python code raises inside `_find_containing_prefix`
before any mutation or callback). -/
theorem claim_C8_delete_absent {α : Type} (t : Trie α) (k : Key)
    (hr : rootInv t = true) (e : String) (hget : t.getRoot k = .error e) :
    (∃ e2, t.delRoot k = .error e2) ∧
    ∀ (t2 : Trie α) (evs : List (Event α)), t.delRoot k ≠ .ok (t2, evs) := by
  have hnone : lookupA (bindings t) k = none := by
    have hopt := getRoot_toOption hr k
    rw [hget] at hopt
    exact hopt.symm
  have herr := (delRoot_error_iff hr).mpr hnone
  refine ⟨herr, ?_⟩
  intro t2 evs hok
  obtain ⟨e2, he2⟩ := herr
  rw [hok] at he2
  exact Except.noConfusion he2

/-- Witness for `claim_C8_delete_absent`: deleting the absent key "b"
from the trie {"a": 1}. -/
theorem claim_C8_delete_absent_witness :
    rootInv (Trie.mk (none : Option Nat) [([ 'a' ], Trie.mk (some 1) [])]) = true ∧
    ((∃ e2, Trie.delRoot (Trie.mk (none : Option Nat)
        [([ 'a' ], Trie.mk (some 1) [])]) [ 'b' ] = .error e2) ∧
     ∀ (t2 : Trie Nat) (evs : List (Event Nat)),
       Trie.delRoot (Trie.mk (none : Option Nat)
         [([ 'a' ], Trie.mk (some 1) [])]) [ 'b' ] ≠ .ok (t2, evs)) :=
  ⟨by decide,
   claim_C8_delete_absent _ [ 'b' ] (by decide) "No requested key."
     (by simp [Trie.getRoot, getRel, findContainingPfx, findBestPfx, commonPfx])⟩

/-- C9: constructing a trie node with a parent and an empty or omitted
suffix fails with `ValueError("Only root trie may have empty suffix.")`,
while a parentless (root) node with an empty suffix is constructed
successfully. -/
theorem claim_C9_empty_suffix {α : Type} (pch : List Key) (sfx : Option Key)
    (hs : sfx = none ∨ sfx = some []) :
    trieInit α (some pch) sfx = .error "Only root trie may have empty suffix." ∧
    ∃ t ev, trieInit α none sfx = .ok (t, ev) := by
  rcases hs with rfl | rfl
  · exact ⟨rfl, ⟨.mk none [], .create [[]], rfl⟩⟩
  · exact ⟨rfl, ⟨.mk none [], .create [[]], rfl⟩⟩

/-- Witness for `claim_C9_empty_suffix` with an omitted suffix. -/
theorem claim_C9_empty_suffix_witness :
    trieInit Nat (some [[ 'a' ]]) none = .error "Only root trie may have empty suffix." ∧
    ∃ t ev, trieInit Nat none none = .ok (t, ev) :=
  claim_C9_empty_suffix [[ 'a' ]] none (Or.inl rfl)

/-- C10: `trie[key] = value` never detaches or merges nodes: on a trie
satisfying the root invariant, the node count `__len__` never decreases
across a set, and every other key reads exactly as before. -/
theorem claim_C10_set_no_detach {α : Type} (t : Trie α) (k : Key) (v : α)
    (hr : rootInv t = true) :
    t.size ≤ (t.setRoot k v).1.size ∧
    ∀ k2 : Key, k2 ≠ k →
      ((t.setRoot k v).1.getRoot k2).toOption = (t.getRoot k2).toOption := by
  obtain ⟨hdi, -⟩ := (rootInv_iff t).mp hr
  constructor
  · exact setRel_size k.length k [[]] t v (Nat.le_refl _) hdi
  · intro k2 hne
    have hb := setRel_bindings k.length k [[]] t v (Nat.le_refl _) hdi k2
    rw [if_neg hne] at hb
    have h1 := getRoot_toOption (setRoot_inv k v hr) k2
    have h2 := getRoot_toOption hr k2
    rw [h1, h2]
    exact hb

/-- Witness for `claim_C10_set_no_detach` on a concrete singleton trie. -/
theorem claim_C10_set_no_detach_witness :
    rootInv (Trie.mk (none : Option Nat) [([ 'a' ], Trie.mk (some 1) [])]) = true ∧
    ((Trie.mk (none : Option Nat) [([ 'a' ], Trie.mk (some 1) [])]).size ≤
       ((Trie.mk (none : Option Nat)
         [([ 'a' ], Trie.mk (some 1) [])]).setRoot [ 'a', 'b' ] 2).1.size ∧
     ∀ k2 : Key, k2 ≠ [ 'a', 'b' ] →
       (((Trie.mk (none : Option Nat)
           [([ 'a' ], Trie.mk (some 1) [])]).setRoot [ 'a', 'b' ] 2).1.getRoot k2).toOption =
         ((Trie.mk (none : Option Nat)
           [([ 'a' ], Trie.mk (some 1) [])]).getRoot k2).toOption) :=
  ⟨by decide, claim_C10_set_no_detach _ [ 'a', 'b' ] 2 (by decide)⟩
